import Mathlib

/-!
Verification of the identifier/record resolution core of the `b` bug tracker.

Python strings are modelled as `List Char` (`Str`); Python dicts (which keep
insertion order and update values in place) are modelled as association lists
with first-match lookup (`dget`) and replace-in-place-or-append update (`dset`).
-/

set_option maxHeartbeats 1000000
set_option maxRecDepth 4000

namespace BTrack

abbrev Str := List Char

/-- The placeholder string `':'` used by `helpers.prefixes` to mark a prefix
slot that is shared by several identifiers. -/
def ph : Str := [':']

/-- Python dict lookup `d[k]` / `k in d` (first matching key; dicts never hold
duplicate keys, which `dset` preserves). -/
def dget {β : Type} (d : List (Str × β)) (k : Str) : Option β :=
  match d with
  | [] => none
  | (k', v') :: rest => if k' = k then some v' else dget rest k

/-- Python dict update `d[k] = v`: replaces the value at the first occurrence
of `k`, keeping its position, or appends `(k, v)` when `k` is absent. -/
def dset {β : Type} (d : List (Str × β)) (k : Str) (v : β) : List (Str × β) :=
  match d with
  | [] => [(k, v)]
  | (k', v') :: rest => if k' = k then (k', v) :: rest else (k', v') :: dset rest k v

/-- Python dict deletion `del d[k]` (also the identity when `k` is absent). -/
def ddel {β : Type} (d : List (Str × β)) (k : Str) : List (Str × β) :=
  d.filter (fun kv => ¬ (kv.1 = k))

instance exceptDecEq {ε α : Type} [DecidableEq ε] [DecidableEq α] :
    DecidableEq (Except ε α) := fun a b =>
  match a, b with
  | Except.ok x, Except.ok y =>
    if h : x = y then isTrue (congrArg Except.ok h)
    else isFalse (fun hh => h (Except.ok.inj hh))
  | Except.error x, Except.error y =>
    if h : x = y then isTrue (congrArg Except.error h)
    else isFalse (fun hh => h (Except.error.inj hh))
  | Except.ok _, Except.error _ => isFalse (fun hh => Except.noConfusion hh)
  | Except.error _, Except.ok _ => isFalse (fun hh => Except.noConfusion hh)

/-!
### `helpers.prefixes`

Faithful embedding of `helpers.prefixes` (src/b/helpers.py, lines 125-167).
The Python `for i in range(1, e_len + 1)` scan that stops at the first
position satisfying `prefix not in pre or (pre[prefix] != ':' and
prefix != pre[prefix])` is `firstBreakAux`; the collision-handling
`for j in range(i, e_len + 1) ... else` loop is `collisionLoop`
(the `stop < j` case is Python's `for ... else` clause).
-/

/-- The Python break condition of the inner `for i` loop:
`prefix not in pre or (pre[prefix] != ':' and prefix != pre[prefix])`. -/
def breakCond (d : List (Str × Str)) (pfx : Str) : Bool :=
  match dget d pfx with
  | none => true
  | some v => decide (¬ v = ph) && decide (¬ pfx = v)

/-- The `for i in range(1, e_len + 1)` loop of `prefixes`: returns the final
value of the loop variable `i` (the first index whose prefix satisfies the
break condition, or `stop` when the loop runs to completion).  The fuel
argument counts the remaining iterations, `stop - i`; when it reaches zero,
`i = stop` and the loop is about to end with `i = stop` whether or not the
last break condition holds, so returning `i` is exact. -/
def firstBreakAux (d : List (Str × Str)) (e : Str) (stop : Nat) :
    Nat → Nat → Nat
  | i, 0 => i
  | i, fuel + 1 =>
    if breakCond d (e.take i) then i
    else if stop ≤ i then i
    else firstBreakAux d e stop (i + 1) fuel

/-- The final value of the loop variable `i` for element `e` (the loop runs
`i = 1, ..., len(e)`). -/
def firstBreak (d : List (Str × Str)) (e : Str) : Nat :=
  firstBreakAux d e e.length 1 (e.length - 1)

/-- The collision-handling `for j in range(i, e_len + 1)` loop of `prefixes`,
including its `else` clause.  The fuel argument counts the remaining
iterations, `stop + 1 - j`; when it reaches zero, `j` has run past `stop` and
Python's `for ... else` clause executes. -/
def collisionLoop (e collide : Str) (stop : Nat) :
    Nat → Nat → List (Str × Str) → List (Str × Str)
  | _, 0, d => dset (dset d (collide.take (stop + 1)) collide) e e
  | j, fuel + 1, d =>
    if collide.take j = e.take j then
      collisionLoop e collide stop (j + 1) fuel (dset d (e.take j) ph)
    else dset (dset d (collide.take j) collide) (e.take j) e

/-- One iteration of the outer `for e in elements` loop of `prefixes`. -/
def insertElem (d : List (Str × Str)) (e : Str) : List (Str × Str) :=
  let i := firstBreak d e
  match dget d (e.take i) with
  | some collide => collisionLoop e collide e.length i (e.length + 1 - i) d
  | none => dset d (e.take i) e

/-- The whole `for e in elements` loop of `prefixes`. -/
def insertAll (elements : List Str) : List (Str × Str) :=
  elements.foldl insertElem []

/-- Proof helper describing the dictionary states built by the equal-prefix
iterations of `collisionLoop`: starting at key length `i`, set the `n` keys
`e.take i, e.take (i+1), ..., e.take (i+n-1)` to the placeholder. -/
def phRangeN (e : Str) : Nat → Nat → List (Str × Str) → List (Str × Str)
  | _, 0, d => d
  | i, n + 1, d => phRangeN e (i + 1) n (dset d (e.take i) ph)

/-- Model of `dict(zip(pre.values(), pre.keys()))`: invert the mapping, later entries
overwriting earlier ones. -/
def invertDict (d : List (Str × Str)) : List (Str × Str) :=
  d.foldl (fun acc kv => dset acc kv.2 kv.1) []

/-- Model of `helpers.prefixes`: mapping from each element to its computed prefix. -/
def prefixes (elements : List Str) : List (Str × Str) :=
  ddel (invertDict (insertAll elements)) ph

/-!
### The record store (`Tracker`, src/b/bugs.py)

A record as held in `Tracker.bugs` (a dict keyed by the `id` field).  The
Python value of `open` is a `bool`; `entered` and `owner` are represented as
strings (as they are after loading a bugs file; `Tracker.add` stores
`owner = None`, which prints as `None` — the claims checked here never
depend on that value).
-/

structure Bug where
  id : Str
  title : Str
  isOpen : Bool
  entered : Str
  owner : Str
deriving DecidableEq, Repr

/-- The two failure modes of `Tracker.__getitem__`
(`exceptions.UnknownPrefix` / `exceptions.AmbiguousPrefix`). -/
inductive PfxErr where
  | unknownPfx
  | ambiguousPfx
deriving DecidableEq, Repr

/-- Model of `Tracker.__getitem__` (src/b/bugs.py, lines 201-219).  The store is the
value list of the dict `self.bugs` in insertion order; `matched` filters the
keys by `item.startswith(prefix)`; `self.bugs[matched[0]]` is the first
record with the matched id (the ids of a dict-backed store are distinct). -/
def getitem (store : List Bug) (pfx : Str) : Except PfxErr Bug :=
  let matched := (store.map Bug.id).filter (fun k => pfx.isPrefixOf k)
  match matched with
  | [m] =>
    match store.find? (fun b => b.id == m) with
    | some b => Except.ok b
    | none => Except.error PfxErr.unknownPfx
  | [] => Except.error PfxErr.unknownPfx
  | _ :: _ :: _ =>
    match (store.map Bug.id).filter (fun k => k == pfx) with
    | [m] =>
      match store.find? (fun b => b.id == m) with
      | some b => Except.ok b
      | none => Except.error PfxErr.unknownPfx
    | _ => Except.error PfxErr.ambiguousPfx

/-!
### User resolution (`Tracker._users_list` / `Tracker._get_user`)
-/

/-- The reserved token `'me'`. -/
def meTok : Str := ['m', 'e']

/-- The reserved token `'Nobody'`. -/
def nobodyTok : Str := ['N', 'o', 'b', 'o', 'd', 'y']

/-- The display label `'*unassigned*'` used by `Tracker._users_list`. -/
def unassignedTok : Str := ['*', 'u', 'n', 'a', 's', 's', 'i', 'g', 'n', 'e', 'd', '*']

/-- Python `str.lower()` (ASCII case folding suffices for the owners here). -/
def pyLower (s : Str) : Str := s.map Char.toLower

/-- Model of `Tracker._users_list` (src/b/bugs.py, lines 254-271): mapping of owner
name to number of open bugs; owners with only closed bugs get count 0; the
empty owner is re-keyed to `'*unassigned*'`. -/
def users_list (bugs : List Bug) : List (Str × Nat) :=
  let openOwners := (bugs.filter (fun b => b.isOpen)).map Bug.owner
  let closedOwners := (bugs.filter (fun b => ¬ b.isOpen)).map Bug.owner
  let users := openOwners.foldl
    (fun u user =>
      match dget u user with
      | some n => dset u user (n + 1)
      | none => dset u user 1) []
  let users := closedOwners.foldl
    (fun u user =>
      match dget u user with
      | some _ => u
      | none => dset u user 0) users
  match dget users [] with
  | some n => ddel (dset users unassignedTok n) []
  | none => users

/-- Failures of `Tracker._get_user` (`exceptions.AmbiguousUser`,
`exceptions.UnknownUser`, `exceptions.InvalidInput`). -/
inductive UserErr where
  | ambiguousUser (user : Str) (matched : List Str)
  | unknownUser (user : Str)
  | invalidInput
deriving DecidableEq, Repr

/-- Model of `Tracker._get_user` (src/b/bugs.py, lines 275-304). -/
def get_user (bugs : List Bug) (selfUser : Str) (user : Str) (force : Bool) :
    Except UserErr Str :=
  if user = meTok then Except.ok selfUser
  else if user = nobodyTok then Except.ok []
  else
    let users := (users_list bugs).map Prod.fst
    if force then
      if ('|' ∈ user) then Except.error UserErr.invalidInput else Except.ok user
    else
      let afterMatch : Except UserErr Str :=
        if user ∈ users then Except.ok user
        else
          let usr := pyLower user
          let matched := users.filter (fun u => usr.isPrefixOf (pyLower u))
          if 1 < matched.length then Except.error (UserErr.ambiguousUser user matched)
          else
            match matched with
            | [m] => Except.ok m
            | _ => Except.error (UserErr.unknownUser user)
      match afterMatch with
      | Except.error e => Except.error e
      | Except.ok u => if u = nobodyTok then Except.ok [] else Except.ok u

/-!
### `Tracker.rename` (src/b/bugs.py, lines 337-352)

`re.sub(find, repl, title)` is modelled for regex-metacharacter-free,
non-empty `find` patterns: on such patterns Python's `re.sub` replaces every
leftmost non-overlapping literal occurrence (the default `count=0` replaces
all matches, not only the first).
-/

/-- Python `str.rstrip('/')`: drop every trailing `'/'`. -/
def rstripSlash (s : Str) : Str := ((s.reverse).dropWhile (fun c => c = '/')).reverse

/-- Model of `re.sub('^s?/', '', title)`: remove a leading `s/` or `/` (the title is
only passed through this in the branch where it starts with one of them). -/
def stripSubLead (s : Str) : Str :=
  match s with
  | 's' :: '/' :: rest => rest
  | '/' :: rest => rest
  | _ => s

/-- Python `str.partition('/')` restricted to the two components used by
`rename` (`find, _, repl = title.partition('/')`). -/
def partitionSlash (s : Str) : Str × Str :=
  let before := s.takeWhile (fun c => ¬ c = '/')
  let rest := s.dropWhile (fun c => ¬ c = '/')
  (before, rest.drop 1)

/-- Fuel-driven worker for `subAll`; the fuel bounds the length of the
remaining string (each step strictly shortens it when `find` is non-empty,
and at fuel 0 the string is empty). -/
def subAllGo (find repl : Str) : Nat → Str → Str
  | 0, s => s
  | fuel + 1, s =>
    if find = [] then s
    else if find.isPrefixOf s then
      repl ++ subAllGo find repl fuel (s.drop find.length)
    else
      match s with
      | [] => []
      | c :: rest => c :: subAllGo find repl fuel rest

/-- Model of `re.sub(find, repl, s)` for a non-empty metacharacter-free `find`:
replace every leftmost non-overlapping occurrence.  (For `find = []` the
string is returned unchanged; Python's behaviour on an empty pattern is not
needed by any claim.) -/
def subAll (find repl s : Str) : Str := subAllGo find repl s.length s

/-- The body of `Tracker.rename` acting on the resolved bug's title:
the new title that gets assigned to `bug['title']`. -/
def rename_title (curTitle arg : Str) : Str :=
  if (['s', '/'].isPrefixOf arg) || (['/'].isPrefixOf arg) then
    let t := stripSubLead arg
    let t := rstripSlash t
    let fr := partitionSlash t
    subAll fr.1 fr.2 curTitle
  else arg

/-- Replacement of only the first occurrence, following the specification's
words ("find/replace semantics, first match only"); used to compare
`rename_title` against the specified behaviour. -/
def subFirst_spec (find repl : Str) : Str → Str
  | [] => if find = [] then [] else []
  | c :: rest =>
    if find = [] then c :: rest
    else if find.isPrefixOf (c :: rest) then repl ++ (c :: rest).drop find.length
    else c :: subFirst_spec find repl rest

/-!
### Identifier generation

`Tracker.add` produces the new id with `helpers.make_id(self.bugs.keys())`.
-/

/-- The sixteen lowercase hexadecimal digits. -/
def hexDigits : List Char :=
  ['0', '1', '2', '3', '4', '5', '6', '7', '8', '9'] ++ ['a', 'b', 'c', 'd', 'e', 'f']

/-- Modelled from the spec: `helpers.make_id` is called by `Tracker.add` and
`Tracker.__init__` but is absent from the sources provided (src/b/helpers.py
does not define it).  Per §4.1 of the specification it "produces a
fixed-length hexadecimal digest (content- or time-derived) and retries
generation until the result is absent from `existing`".  The digest stream
(a pure function of time/entropy) is the parameter `gen`; generation retries
along the stream until a candidate is absent from `existing`. -/
def make_id (existing : List Str) (gen : Nat → Str)
    (h : ∃ n, gen n ∉ existing) : Str :=
  gen (Nat.find h)

/-!
### Migrations (src/b/migrations.py)

The migration stages are modelled as the trace of file-system operations
performed for one record file; the text transformations themselves
(`re.sub` header rewriting, YAML section folding) are parameters, as the
specification scopes them out ("its text-transformation details ... are not
specified beyond the behavioral contract").
-/

/-- A file-system operation performed by a migration stage. -/
inductive FsEvent where
  | fread (p : Str)
  | fremove (p : Str)
  | fwrite (p : Str) (contents : Str)
deriving DecidableEq, Repr

/-- Model of `os.path.splitext(p)[0]`: the path up to (excluding) the last dot. -/
def splitextBase (p : Str) : Str :=
  let r := p.reverse
  let ext := r.takeWhile (fun c => ¬ c = '.')
  if ext.length = r.length then p else (r.drop (ext.length + 1)).reverse

/-- The `.md` extension. -/
def mdExt : Str := ['.', 'm', 'd']

/-- The `.bug.yaml` extension appended by `details_to_yaml`. -/
def yamlExt : Str := ['.', 'b', 'u', 'g', '.', 'y', 'a', 'm', 'l']

/-- Model of `migrations.details_to_markdown` (lines 29-50), for one `.txt` details
file: read the contents, remove the original `.txt` file, then write the
transformed contents to the `.md` path — in exactly that order. -/
def details_to_markdown_file (transform : Str → Str) (txtPath contents : Str) :
    List FsEvent :=
  [FsEvent.fread txtPath,
   FsEvent.fremove txtPath,
   FsEvent.fwrite (splitextBase txtPath ++ mdExt) (transform contents)]

/-- Model of `migrations.details_to_yaml` (lines 54-105), for one `.md` details file:
read and parse, then — if the target `.bug.yaml` already exists — log the
conflict and `continue` (no write, no removal); otherwise write the YAML file
and only then remove the `.md` original. -/
def details_to_yaml_file (toYaml : Str → Str) (mdPath contents : Str)
    (targetExists : Bool) : List FsEvent :=
  let yamlPath := splitextBase mdPath ++ yamlExt
  if targetExists then [FsEvent.fread mdPath]
  else
    [FsEvent.fread mdPath,
     FsEvent.fwrite yamlPath (toYaml contents),
     FsEvent.fremove mdPath]

/-- Holds (as `true`) iff every removal of `src` in the trace happens after some write
of `dst` ("deletes the pre-migration artifact only after successfully
writing its successor"). -/
def removalsAfterWrite (trace : List FsEvent) (src dst : Str) : Bool :=
  (trace.foldl
    (fun st ev =>
      match ev with
      | FsEvent.fwrite p _ => (st.1 || (p == dst), st.2)
      | FsEvent.fremove p => (st.1, st.2 && (!(p == src) || st.1))
      | FsEvent.fread _ => st)
    (false, true)).2

/-!
### Persistence (`Tracker._write`, src/b/bugs.py lines 97-104, and the
loading part of `Tracker.__init__`, lines 69-93)
-/

/-- Python `str.ljust(n)`. -/
def pyLjust (s : Str) (n : Nat) : Str := s ++ List.replicate (n - s.length) ' '

/-- Python `str(bool)`. -/
def pyBoolStr (b : Bool) : Str :=
  if b then ['T', 'r', 'u', 'e'] else ['F', 'a', 'l', 's', 'e']

/-- The literal `id:`. -/
def litId : Str := ['i', 'd', ':']

/-- The literal `,open:`. -/
def litOpen : Str := [',', 'o', 'p', 'e', 'n', ':']

/-- The literal `,time:`. -/
def litTime : Str := [',', 't', 'i', 'm', 'e', ':']

/-- The literal `,owner:`. -/
def litOwner : Str := [',', 'o', 'w', 'n', 'e', 'r', ':']

/-- The f-string
`f"{bug['title'].ljust(60)} | id:...,open:...,time:...,owner:..."` written by
`Tracker._write` for one bug.  Note there is no trailing newline. -/
def bugLine (b : Bug) : Str :=
  pyLjust b.title 60 ++ [' ', '|', ' '] ++
    litId ++ b.id ++ litOpen ++ pyBoolStr b.isOpen ++
    litTime ++ b.entered ++ litOwner ++ b.owner

/-- Model of `Tracker._write`: the full file contents, bugs sorted by id
(`sorted(self.bugs.values(), key=lambda bug: bug['id'])`), each rendered by
`bugLine` and concatenated by consecutive `tfile.write` calls. -/
def tracker_write (bugs : List Bug) : Str :=
  ((bugs.insertionSort (fun a b => a.id ≤ b.id)).map bugLine).flatten

/-- Python `str.strip()`. -/
def pyStrip (s : Str) : Str :=
  ((s.dropWhile Char.isWhitespace).reverse.dropWhile Char.isWhitespace).reverse

/-- Model of `file.readlines()` on text contents: split at newlines; the parser below
strips each line, so the kept/stripped `'\n'` terminators are immaterial. -/
def readLines (s : Str) : List Str :=
  if s = [] then []
  else
    let parts := s.splitOn '\n'
    if parts.getLast? = some [] then parts.dropLast else parts

/-- Model of `line.rsplit('|', 1)` when `'|' in line` (split at the last `'|'`). -/
def rsplitPipe (s : Str) : Option (Str × Str) :=
  if '|' ∈ s then
    let r := s.reverse
    let afterR := r.takeWhile (fun c => ¬ c = '|')
    some ((r.drop (afterR.length + 1)).reverse, afterR.reverse)
  else none

/-- Model of `piece.split(':', 1)`: split at the first `':'`, if any. -/
def splitColonOnce (s : Str) : Option (Str × Str) :=
  if ':' ∈ s then
    some (s.takeWhile (fun c => ¬ c = ':'), (s.dropWhile (fun c => ¬ c = ':')).drop 1)
  else none

/-- The metadata keys used by `Tracker.__init__`. -/
def keyId : Str := ['i', 'd']

/-- The key `open`. -/
def keyOpen : Str := ['o', 'p', 'e', 'n']

/-- The key `time`. -/
def keyTime : Str := ['t', 'i', 'm', 'e']

/-- The key `owner`. -/
def keyOwner : Str := ['o', 'w', 'n', 'e', 'r']

/-- The literal `false`. -/
def litFalseLower : Str := ['f', 'a', 'l', 's', 'e']

/-- Parsing of one line by `Tracker.__init__`.  `freshId` stands for the
`helpers.make_id()` default and `now` for the `time.time()` default (both
impure in Python, threaded here as parameters).  A line without `'|'` makes
the Python code read the stale/unbound local `title` (a latent fault) and a
metadata piece without `':'` raises `ValueError`; both are modelled as
`none`. -/
def tracker_parse_line (freshId now line : Str) : Option Bug :=
  match rsplitPipe line with
  | none => none
  | some (title, other) =>
    match ((pyStrip other).splitOn ',').mapM
        (fun piece =>
          (splitColonOnce piece).map (fun ld => (pyStrip ld.1, pyStrip ld.2))) with
    | none => none
    | some pieces =>
      let meta : List (Str × Str) := pieces.foldl (fun d lv => dset d lv.1 lv.2) []
      some
        { title := pyStrip title
          id := (dget meta keyId).getD freshId
          isOpen := decide (¬ pyLower ((dget meta keyOpen).getD []) = litFalseLower)
          entered := (dget meta keyTime).getD now
          owner := (dget meta keyOwner).getD [] }

/-- The loading part of `Tracker.__init__`: parse every line, then build the
dict `self.bugs` keyed by id (`dict((bug['id'], bug) for bug in bugs)`,
later entries overwriting earlier ones). -/
def tracker_load (freshId now contents : Str) : Option (List (Str × Bug)) :=
  ((readLines contents).mapM (tracker_parse_line freshId now)).map
    (fun bugs => bugs.foldl (fun d b => dset d b.id b) [])

/-!
Order facts about bugs compared by identifier, used for the persistence
theorems (claims C10 and C4).
-/

instance : IsTotal Bug (fun a b => a.id ≤ b.id) :=
  ⟨fun a b => le_total a.id b.id⟩

instance : IsTrans Bug (fun a b => a.id ≤ b.id) :=
  ⟨fun _ _ _ h1 h2 => le_trans h1 h2⟩

instance : IsAntisymm Bug (fun a b => a.id < b.id) :=
  ⟨fun _ _ h1 h2 => absurd h2 (lt_asymm h1)⟩

/-- The loop invariant of `prefixes`: after processing the elements `S`, the
dictionary `pre` (here `d`) satisfies these properties. -/
structure Inv (S : List Str) (d : List (Str × Str)) : Prop where
  nodupKeys : (d.map Prod.fst).Nodup
  vals : ∀ {k v}, dget d k = some v → v = ph ∨ (v ∈ S ∧ ¬ k = [] ∧ k <+: v)
  cover : ∀ x ∈ S, ∃ k, dget d k = some x
  uniqVal : ∀ {k₁ k₂ v}, dget d k₁ = some v → dget d k₂ = some v →
      ¬ v = ph → k₁ = k₂
  resolved : ∀ {k₁ k₂ v₁ v₂}, dget d k₁ = some v₁ → dget d k₂ = some v₂ →
      k₁ <+: k₂ → ¬ k₁ = k₂ → v₁ = ph ∨ v₁ = k₁
  closedK : ∀ {k v}, dget d k = some v → ∀ m, 0 < m → m < k.length →
      (dget d (k.take m)).isSome = true
  keysOf : ∀ {k v}, dget d k = some v → k = ph ∨ (∃ x ∈ S, ¬ k = [] ∧ k <+: x)

theorem dget_dset {β : Type} (d : List (Str × β)) (k : Str) (v : β) (k' : Str) :
    dget (dset d k v) k' = if k' = k then some v else dget d k' := by
  induction d with
  | nil =>
    simp only [dset, dget]
    by_cases h : k' = k
    · rw [if_pos h.symm, if_pos h]
    · rw [if_neg (fun he => h he.symm), if_neg h]
  | cons p rest ih =>
    obtain ⟨k₀, v₀⟩ := p
    by_cases h0 : k₀ = k
    · subst h0
      simp only [dset, if_pos rfl, dget]
      by_cases h1 : k₀ = k'
      · rw [if_pos h1, if_pos h1.symm]
      · rw [if_neg h1, if_neg (fun he : k' = k₀ => h1 he.symm), if_neg h1]
    · simp only [dset, if_neg h0, dget, ih]
      by_cases h1 : k₀ = k'
      · have h2 : ¬ k' = k := fun he => h0 (h1.trans he)
        rw [if_pos h1, if_neg h2, if_pos h1]
      · rw [if_neg h1, if_neg h1]

theorem dget_dset_self {β : Type} (d : List (Str × β)) (k : Str) (v : β) :
    dget (dset d k v) k = some v := by
  simp [dget_dset]

theorem dget_dset_ne {β : Type} (d : List (Str × β)) (k : Str) (v : β) (k' : Str)
    (h : k' ≠ k) : dget (dset d k v) k' = dget d k' := by
  simp [dget_dset, h]

theorem keys_dset {β : Type} (d : List (Str × β)) (k : Str) (v : β) :
    (dset d k v).map Prod.fst = d.map Prod.fst ∨
      (dset d k v).map Prod.fst = d.map Prod.fst ++ [k] := by
  induction d with
  | nil => right; simp [dset]
  | cons p rest ih =>
    obtain ⟨k₀, v₀⟩ := p
    by_cases h0 : k₀ = k
    · left; simp [dset, h0]
    · rcases ih with h | h
      · left; simp [dset, h0, h]
      · right; simp [dset, h0, h]

theorem nodup_keys_dset {β : Type} (d : List (Str × β)) (k : Str) (v : β)
    (hd : (d.map Prod.fst).Nodup) : ((dset d k v).map Prod.fst).Nodup := by
  induction d with
  | nil => simp only [dset, List.map_cons, List.map_nil]; exact List.nodup_singleton k
  | cons p rest ih =>
    obtain ⟨k₀, v₀⟩ := p
    simp only [List.map_cons, List.nodup_cons] at hd
    by_cases h0 : k₀ = k
    · simp only [dset, if_pos h0, List.map_cons, List.nodup_cons]
      exact ⟨hd.1, hd.2⟩
    · have hrest := ih hd.2
      simp only [dset, if_neg h0, List.map_cons, List.nodup_cons]
      refine ⟨?_, hrest⟩
      intro hmem
      rcases keys_dset rest k v with hk | hk
      · rw [hk] at hmem; exact hd.1 hmem
      · rw [hk] at hmem
        rcases List.mem_append.mp hmem with h1 | h1
        · exact hd.1 h1
        · rw [List.mem_singleton] at h1; exact h0 h1

theorem dget_isSome_iff {β : Type} (d : List (Str × β)) (k : Str) :
    (dget d k).isSome = true ↔ k ∈ d.map Prod.fst := by
  induction d with
  | nil => simp [dget]
  | cons p rest ih =>
    obtain ⟨k₀, v₀⟩ := p
    by_cases h0 : k₀ = k
    · simp only [dget, if_pos h0, Option.isSome_some, List.map_cons, List.mem_cons]
      exact ⟨fun _ => Or.inl h0.symm, fun _ => trivial⟩
    · simp only [dget, if_neg h0, List.map_cons, List.mem_cons, ih]
      constructor
      · exact fun h => Or.inr h
      · rintro (h | h)
        · exact absurd h.symm h0
        · exact h

theorem dget_eq_none_iff {β : Type} (d : List (Str × β)) (k : Str) :
    dget d k = none ↔ k ∉ d.map Prod.fst := by
  rw [← dget_isSome_iff]
  cases dget d k <;> simp

theorem dget_of_mem {β : Type} (d : List (Str × β)) (k : Str) (v : β)
    (hd : (d.map Prod.fst).Nodup) (h : (k, v) ∈ d) : dget d k = some v := by
  induction d with
  | nil => simp at h
  | cons p rest ih =>
    obtain ⟨k₀, v₀⟩ := p
    simp only [List.map_cons, List.nodup_cons] at hd
    rcases List.mem_cons.mp h with h1 | h1
    · obtain ⟨h2, h3⟩ := Prod.mk.injEq .. ▸ h1
      simp [dget, h2.symm, h3]
    · have hk : k₀ ≠ k := by
        intro he; subst he
        exact hd.1 (List.mem_map.mpr ⟨(k₀, v), h1, rfl⟩)
      simp [dget, hk, ih hd.2 h1]

theorem mem_of_dget {β : Type} (d : List (Str × β)) (k : Str) (v : β)
    (h : dget d k = some v) : (k, v) ∈ d := by
  induction d with
  | nil => simp [dget] at h
  | cons p rest ih =>
    obtain ⟨k₀, v₀⟩ := p
    by_cases h0 : k₀ = k
    · subst h0; simp [dget] at h; simp [h]
    · simp [dget, h0] at h
      exact List.mem_cons_of_mem _ (ih h)

theorem mem_dset_elim {β : Type} (d : List (Str × β)) (k : Str) (v : β)
    (a : Str) (b : β) (h : (a, b) ∈ dset d k v) : (a = k ∧ b = v) ∨ (a, b) ∈ d := by
  induction d with
  | nil =>
    simp only [dset, List.mem_singleton, Prod.mk.injEq] at h
    exact Or.inl h
  | cons p rest ih =>
    obtain ⟨k₀, v₀⟩ := p
    by_cases h0 : k₀ = k
    · subst h0
      simp only [dset, if_true] at h
      rcases List.mem_cons.mp h with h1 | h1
      · rw [Prod.mk.injEq] at h1
        exact Or.inl h1
      · exact Or.inr (List.mem_cons_of_mem _ h1)
    · simp only [dset, if_neg h0, List.mem_cons] at h
      rcases h with h1 | h1
      · exact Or.inr (List.mem_cons.mpr (Or.inl h1))
      · rcases ih h1 with h2 | h2
        · exact Or.inl h2
        · exact Or.inr (List.mem_cons_of_mem _ h2)

theorem mem_keys_dset {β : Type} (d : List (Str × β)) (k : Str) (v : β)
    (a : Str) (h : a ∈ d.map Prod.fst) : a ∈ (dset d k v).map Prod.fst := by
  rcases keys_dset d k v with hk | hk
  · rw [hk]; exact h
  · rw [hk]; exact List.mem_append.mpr (Or.inl h)

theorem self_mem_keys_dset {β : Type} (d : List (Str × β)) (k : Str) (v : β) :
    k ∈ (dset d k v).map Prod.fst := by
  rw [← dget_isSome_iff, dget_dset_self]; rfl

/-!
### Resolution theorems (claims C2, C3, C9)
-/

theorem find_by_id_eq {store : List Bug} {b : Bug}
    (hnd : (store.map Bug.id).Nodup) (hb : b ∈ store) :
    store.find? (fun x => x.id == b.id) = some b := by
  induction store with
  | nil => simp at hb
  | cons hd tl ih =>
    simp only [List.map_cons, List.nodup_cons] at hnd
    by_cases hid : hd.id = b.id
    · have hbhd : b = hd := by
        rcases List.mem_cons.mp hb with h1 | h1
        · exact h1
        · exact absurd (hid ▸ List.mem_map.mpr ⟨b, h1, rfl⟩) hnd.1
      subst hbhd
      simp [List.find?, hid]
    · have hb' : b ∈ tl := by
        rcases List.mem_cons.mp hb with h1 | h1
        · exact absurd (h1 ▸ rfl) hid
        · exact h1
      have : (hd.id == b.id) = false := beq_false_of_ne hid
      simp [List.find?, this, ih hnd.2 hb']

theorem filter_beq_self {l : List Str} {a : Str} (hnd : l.Nodup) (ha : a ∈ l) :
    l.filter (fun k => k == a) = [a] := by
  induction l with
  | nil => simp at ha
  | cons hd tl ih =>
    simp only [List.nodup_cons] at hnd
    by_cases h : hd = a
    · subst h
      have : tl.filter (fun k => k == hd) = [] := by
        refine List.filter_eq_nil_iff.mpr ?_
        intro x hx
        simp only [beq_iff_eq]
        intro he; exact hnd.1 (he ▸ hx)
      simp [List.filter_cons, this]
    · have ha' : a ∈ tl := by
        rcases List.mem_cons.mp ha with h1 | h1
        · exact absurd h1.symm h
        · exact h1
      have : (hd == a) = false := beq_false_of_ne h
      simp [List.filter_cons, this, ih hnd.2 ha']

/-- C2: resolving a full identifier that is a key of the store always
succeeds and returns exactly the record with that identifier, no matter how
the other identifiers overlap with it. -/
theorem getitem_full_id_ok (store : List Bug) (b : Bug)
    (hnd : (store.map Bug.id).Nodup) (hb : b ∈ store) :
    getitem store b.id = Except.ok b := by
  have hmem : b.id ∈ (store.map Bug.id).filter (fun k => b.id.isPrefixOf k) := by
    refine List.mem_filter.mpr ⟨List.mem_map.mpr ⟨b, hb, rfl⟩, ?_⟩
    exact List.isPrefixOf_iff_prefix.mpr (List.prefix_refl _)
  simp only [getitem]
  rcases hM : (store.map Bug.id).filter (fun k => b.id.isPrefixOf k) with
    _ | ⟨m, _ | ⟨m2, rest⟩⟩
  · rw [hM] at hmem; simp at hmem
  · rw [hM] at hmem
    have hmb : m = b.id := (List.mem_singleton.mp hmem).symm
    subst hmb
    simp [find_by_id_eq hnd hb]
  · have : (store.map Bug.id).filter (fun k => k == b.id) = [b.id] :=
      filter_beq_self hnd (List.mem_map.mpr ⟨b, hb, rfl⟩)
    simp [this, find_by_id_eq hnd hb]

/-- C2 witness. -/
theorem getitem_full_id_ok_witness :
    getitem [⟨['a', 'b'], ['t'], true, ['1'], []⟩, ⟨['a'], ['u'], true, ['2'], []⟩]
      ['a'] = Except.ok ⟨['a'], ['u'], true, ['2'], []⟩ := by
  have h := getitem_full_id_ok
    [⟨['a', 'b'], ['t'], true, ['1'], []⟩, ⟨['a'], ['u'], true, ['2'], []⟩]
    ⟨['a'], ['u'], true, ['2'], []⟩ (by decide) (by decide)
  exact h

/-- C3: with no key extending the prefix, resolution fails with
`UnknownPrefix`; with at least two distinct matching keys and the prefix not
itself a key, it fails with `AmbiguousPrefix`.  (`getitem` is a pure reader
of the store, mirroring that `Tracker.__getitem__` raises before touching
any record.) -/
theorem getitem_err_cases (store : List Bug) (pfx : Str) :
    ((∀ k ∈ store.map Bug.id, ¬ pfx <+: k) →
      getitem store pfx = Except.error PfxErr.unknownPfx)
    ∧ (∀ k1 k2, k1 ∈ store.map Bug.id → k2 ∈ store.map Bug.id → k1 ≠ k2 →
        pfx <+: k1 → pfx <+: k2 → pfx ∉ store.map Bug.id →
        getitem store pfx = Except.error PfxErr.ambiguousPfx) := by
  constructor
  · intro h
    have hM : (store.map Bug.id).filter (fun k => pfx.isPrefixOf k) = [] := by
      refine List.filter_eq_nil_iff.mpr ?_
      intro k hk
      simpa [ List.isPrefixOf_iff_prefix] using h k hk
    simp [getitem, hM]
  · intro k1 k2 hk1 hk2 hne hp1 hp2 hnk
    have hm1 : k1 ∈ (store.map Bug.id).filter (fun k => pfx.isPrefixOf k) :=
      List.mem_filter.mpr ⟨hk1, List.isPrefixOf_iff_prefix.mpr hp1⟩
    have hm2 : k2 ∈ (store.map Bug.id).filter (fun k => pfx.isPrefixOf k) :=
      List.mem_filter.mpr ⟨hk2, List.isPrefixOf_iff_prefix.mpr hp2⟩
    have hEx : (store.map Bug.id).filter (fun k => k == pfx) = [] := by
      refine List.filter_eq_nil_iff.mpr ?_
      intro x hx
      simp only [beq_iff_eq]
      intro he; exact hnk (he ▸ hx)
    simp only [getitem]
    rcases hM : (store.map Bug.id).filter (fun k => pfx.isPrefixOf k) with
      _ | ⟨m, _ | ⟨m2, rest⟩⟩
    · rw [hM] at hm1; simp at hm1
    · rw [hM] at hm1 hm2
      simp only [List.mem_singleton] at hm1 hm2
      exact absurd (hm1.trans hm2.symm) hne
    · simp [hEx]

/-- C3 witness. -/
theorem getitem_err_cases_witness :
    getitem [⟨['a', 'b'], ['t'], true, ['1'], []⟩, ⟨['a', 'c'], ['u'], true, ['2'], []⟩]
        ['z'] = Except.error PfxErr.unknownPfx
    ∧ getitem [⟨['a', 'b'], ['t'], true, ['1'], []⟩, ⟨['a', 'c'], ['u'], true, ['2'], []⟩]
        ['a'] = Except.error PfxErr.ambiguousPfx := by
  refine ⟨(getitem_err_cases _ ['z']).1 (by decide), ?_⟩
  exact (getitem_err_cases _ ['a']).2 ['a', 'b'] ['a', 'c'] (by decide) (by decide)
    (by decide) (by decide) (by decide) (by decide)

/-- C9: resolving the empty prefix returns the unique record of a singleton
store, fails with `UnknownPrefix` on an empty store, and fails with
`AmbiguousPrefix` on a store of two or more records whose identifiers are
non-empty. -/
theorem getitem_empty_pfx (store : List Bug) :
    (store = [] → getitem store [] = Except.error PfxErr.unknownPfx)
    ∧ (∀ b, store = [b] → getitem store [] = Except.ok b)
    ∧ (2 ≤ store.length → (∀ b ∈ store, b.id ≠ []) →
        getitem store [] = Except.error PfxErr.ambiguousPfx) := by
  refine ⟨?_, ?_, ?_⟩
  · rintro rfl; rfl
  · rintro b rfl
    simp [getitem, List.filter_cons, List.isPrefixOf]
  · intro hlen hids
    match store, hlen with
    | b1 :: b2 :: rest, _ =>
      have hall : ∀ k : Str, (([] : Str).isPrefixOf k) = true := by
        intro k; cases k <;> rfl
      have h1 : ¬ (b1.id = []) := hids b1 (by simp)
      have h2 : ¬ (b2.id = []) := hids b2 (by simp)
      have h3 : (rest.map Bug.id).filter (fun k => k.isEmpty) = [] := by
        refine List.filter_eq_nil_iff.mpr ?_
        intro x hx
        rcases List.mem_map.mp hx with ⟨b, hb, rfl⟩
        simpa [List.isEmpty_iff] using hids b (by simp [hb])
      simp [getitem, hall, h1, h2, h3]

/-- C9 witness. -/
theorem getitem_empty_pfx_witness :
    getitem [⟨['a'], ['t'], true, ['1'], []⟩] [] =
      Except.ok ⟨['a'], ['t'], true, ['1'], []⟩
    ∧ getitem [⟨['a'], ['t'], true, ['1'], []⟩, ⟨['b'], ['u'], true, ['2'], []⟩] [] =
      Except.error PfxErr.ambiguousPfx := by
  refine ⟨(getitem_empty_pfx _).2.1 _ rfl, ?_⟩
  exact (getitem_empty_pfx _).2.2 (by decide) (by decide)

/-!
### Rename theorems (claim C5)
-/

/-- C5 counterexample: on title `aa`, the argument `s/a/b/` yields `bb` —
`re.sub` replaces every occurrence — whereas first-match-only semantics
(`subFirst_spec`) would yield `ba`. -/
theorem rename_title_not_first_only :
    rename_title ['a', 'a'] ['s', '/', 'a', '/', 'b', '/'] = ['b', 'b']
    ∧ subFirst_spec ['a'] ['b'] ['a', 'a'] = ['b', 'a']
    ∧ ¬ (rename_title ['a', 'a'] ['s', '/', 'a', '/', 'b', '/'] =
          subFirst_spec ['a'] ['b'] ['a', 'a']) := by
  refine ⟨?_, ?_, ?_⟩ <;> decide

theorem takeWhile_all_append {p : Char → Bool} {xs : Str} (y : Char) (ys : Str)
    (hxs : ∀ c ∈ xs, p c = true) (hy : p y = false) :
    (xs ++ y :: ys).takeWhile p = xs ∧ (xs ++ y :: ys).dropWhile p = y :: ys := by
  induction xs with
  | nil => simp [List.takeWhile, List.dropWhile, hy]
  | cons c cs ih =>
    have hc : p c = true := hxs c (by simp)
    have ih' := ih (fun c' hc' => hxs c' (by simp [hc']))
    simp [List.takeWhile, List.dropWhile, hc, ih'.1, ih'.2]

theorem dropWhile_all_false {p : Char → Bool} {l : Str}
    (h : ∀ c ∈ l, p c = false) : l.dropWhile p = l := by
  cases l with
  | nil => rfl
  | cons c cs => simp [List.dropWhile_cons, h c (by simp)]

theorem takeWhile_all_true {p : Char → Bool} {l : Str}
    (h : ∀ c ∈ l, p c = true) : l.takeWhile p = l := by
  induction l with
  | nil => rfl
  | cons c cs ih =>
    simp [List.takeWhile_cons, h c (by simp), ih (fun c' hc' => h c' (by simp [hc']))]

theorem dropWhile_all_true {p : Char → Bool} {l : Str}
    (h : ∀ c ∈ l, p c = true) : l.dropWhile p = [] := by
  induction l with
  | nil => rfl
  | cons c cs ih =>
    simp [List.dropWhile_cons, h c (by simp), ih (fun c' hc' => h c' (by simp [hc']))]

theorem rstripSlash_compute_nil {find : Str} (hfs : '/' ∉ find) :
    rstripSlash (find ++ '/' :: (([] : Str) ++ ['/'])) = find := by
  have h2 : List.dropWhile (fun c => decide (c = '/')) find.reverse = find.reverse :=
    dropWhile_all_false (fun c hc => by
      simp only [decide_eq_false_iff_not]
      intro he; exact hfs (he ▸ List.mem_reverse.mp hc))
  simp [rstripSlash, List.dropWhile_cons, h2]

theorem rstripSlash_compute_cons {find repl : Str} (hr : repl ≠ [])
    (hrs : '/' ∉ repl) :
    rstripSlash (find ++ '/' :: (repl ++ ['/'])) = find ++ '/' :: repl := by
  rcases hrev : repl.reverse with _ | ⟨c, cs⟩
  · exact absurd (by simpa using hrev) hr
  · have hc : c ∈ repl := List.mem_reverse.mp (hrev ▸ List.mem_cons_self ..)
    have hcf : (decide (c = '/')) = false := by
      simp only [decide_eq_false_iff_not]
      intro he; exact hrs (he ▸ hc)
    have hrepl : repl = cs.reverse ++ [c] := by
      have h3 := congrArg List.reverse hrev
      simpa using h3
    simp [rstripSlash, hrev, List.dropWhile_cons, hcf, hrepl]

/-- C5 amended: on an argument of the substitution form `s/find/replace/`
(with non-empty metacharacter-free `find` and `/`-free `find` and `replace`),
`rename` sets the title to the current title with EVERY leftmost
non-overlapping occurrence of `find` replaced by `replace` — not only the
first one. -/
theorem rename_title_subAll (title find repl : Str)
    (hf : ¬ find = []) (hfs : '/' ∉ find) (hrs : '/' ∉ repl) :
    rename_title title (['s', '/'] ++ (find ++ '/' :: (repl ++ ['/']))) =
      subAll find repl title := by
  have hcond : (['s', '/'].isPrefixOf
      (['s', '/'] ++ (find ++ '/' :: (repl ++ ['/'])))) = true := by
    simp [List.isPrefixOf]
  have hstrip : stripSubLead (['s', '/'] ++ (find ++ '/' :: (repl ++ ['/']))) =
      find ++ '/' :: (repl ++ ['/']) := rfl
  simp only [rename_title, hcond, Bool.true_or, if_true, hstrip]
  rcases hrepl : repl with _ | ⟨r, rs⟩
  · rw [rstripSlash_compute_nil hfs]
    have htake : find.takeWhile (fun c => !decide (c = '/')) = find :=
      takeWhile_all_true (fun c hc => by
        simp only [Bool.not_eq_eq_eq_not, Bool.not_true, decide_eq_false_iff_not]
        intro he; exact hfs (he ▸ hc))
    have hdrop : find.dropWhile (fun c => !decide (c = '/')) = [] :=
      dropWhile_all_true (fun c hc => by
        simp only [Bool.not_eq_eq_eq_not, Bool.not_true, decide_eq_false_iff_not]
        intro he; exact hfs (he ▸ hc))
    simp [partitionSlash, htake, hdrop]
  · rw [← hrepl, rstripSlash_compute_cons (hrepl ▸ List.cons_ne_nil r rs) hrs]
    have hsplit := @takeWhile_all_append (fun c => !decide (c = '/')) find '/' repl
      (fun c hc => by
        simp only [Bool.not_eq_eq_eq_not, Bool.not_true, decide_eq_false_iff_not]
        intro he; exact hfs (he ▸ hc))
      (by simp)
    simp [partitionSlash, hsplit.1, hsplit.2]

/-- C5 amended witness. -/
theorem rename_title_subAll_witness :
    rename_title ['x', 'a', 'x', 'a'] (['s', '/'] ++ (['a'] ++ '/' :: (['b'] ++ ['/']))) =
      subAll ['a'] ['b'] ['x', 'a', 'x', 'a']
    ∧ subAll ['a'] ['b'] ['x', 'a', 'x', 'a'] = ['x', 'b', 'x', 'b'] :=
  ⟨rename_title_subAll ['x', 'a', 'x', 'a'] ['a'] ['b']
    (by decide) (by decide) (by decide), by decide⟩

/-!
### Identifier generation (claim C6)
-/

/-- C6: the generated identifier is always absent from the existing set, and
when the digest stream produces fixed-length hexadecimal digests the chosen
identifier is one too. -/
theorem make_id_fresh (existing : List Str) (gen : Nat → Str)
    (h : ∃ n, gen n ∉ existing) :
    make_id existing gen h ∉ existing
    ∧ ((∀ n, (gen n).length = 40 ∧ ∀ c ∈ gen n, c ∈ hexDigits) →
        ((make_id existing gen h).length = 40
          ∧ ∀ c ∈ make_id existing gen h, c ∈ hexDigits)) :=
  ⟨Nat.find_spec h, fun hg => hg (Nat.find h)⟩

/-- C6 witness. -/
theorem make_id_fresh_witness :
    make_id [['a']] (fun _ => List.replicate 40 '0') ⟨0, by decide⟩ ∉ [['a']] :=
  (make_id_fresh [['a']] (fun _ => List.replicate 40 '0') ⟨0, by decide⟩).1

/-!
### User resolution theorems (claim C7)
-/

/-- C7 counterexample: on a store whose only record is unassigned (owner
`''`), no owner string starts with the token `*u`, so the claim demands
`UnknownUser`; but `Tracker._get_user` fuzzy-matches against the users-list
keys — where `''` has been replaced by the display label `*unassigned*` —
and resolves the token to that label, which is not an owner at all. -/
theorem get_user_unassigned_cex :
    (∀ o ∈ ([⟨['a', 'a'], ['t'], true, ['1'], []⟩] : List Bug).map Bug.owner,
      ¬ ((pyLower ['*', 'u']).isPrefixOf (pyLower o) = true))
    ∧ get_user [⟨['a', 'a'], ['t'], true, ['1'], []⟩] ['x'] ['*', 'u'] false =
        Except.ok unassignedTok
    ∧ unassignedTok ∉ ([⟨['a', 'a'], ['t'], true, ['1'], []⟩] : List Bug).map Bug.owner := by
  refine ⟨?_, ?_, ?_⟩ <;> decide

/-- C7 amended: for a token other than `me` and `Nobody` with `force` false,
resolution works over the key set of the users list (in which the empty
owner appears as the label `*unassigned*`): an exact key is used verbatim;
otherwise case-insensitive prefix matching over those keys gives
`UnknownUser` on zero matches, `AmbiguousUser` carrying the full matched
list on two or more, and on exactly one match resolves to that key (a match
equal to `Nobody` mapping to the empty owner). -/
theorem get_user_cases (bugs : List Bug) (selfUser user : Str)
    (hme : ¬ user = meTok) (hnb : ¬ user = nobodyTok) :
    (user ∈ (users_list bugs).map Prod.fst →
      get_user bugs selfUser user false = Except.ok user)
    ∧ (user ∉ (users_list bugs).map Prod.fst →
      (((users_list bugs).map Prod.fst).filter
          (fun u => (pyLower user).isPrefixOf (pyLower u)) = [] →
        get_user bugs selfUser user false =
          Except.error (UserErr.unknownUser user))
      ∧ (∀ matched, ((users_list bugs).map Prod.fst).filter
            (fun u => (pyLower user).isPrefixOf (pyLower u)) = matched →
          2 ≤ matched.length →
          get_user bugs selfUser user false =
            Except.error (UserErr.ambiguousUser user matched))
      ∧ (∀ m, ((users_list bugs).map Prod.fst).filter
            (fun u => (pyLower user).isPrefixOf (pyLower u)) = [m] →
          get_user bugs selfUser user false =
            Except.ok (if m = nobodyTok then [] else m))) := by
  constructor
  · intro hmem
    simp [get_user, hme, hnb, hmem]
  · intro hmem
    refine ⟨?_, ?_, ?_⟩
    · intro hfil
      simp [get_user, hme, hnb, hmem, hfil]
    · intro matched hfil hlen
      have h1 : 1 < matched.length := by omega
      simp [get_user, hme, hnb, hmem, hfil, h1]
    · intro m hfil
      simp only [get_user, if_neg hme, if_neg hnb, Bool.false_eq_true, if_false,
        if_neg hmem, hfil]
      by_cases hm : m = nobodyTok <;> simp [hm]

/-- C7 amended witness. -/
theorem get_user_cases_witness :
    get_user [⟨['a', 'a'], ['t'], true, ['1'], ['B', 'o', 'b']⟩] ['x']
        ['b', 'o'] false = Except.ok ['B', 'o', 'b'] := by
  have h := (get_user_cases [⟨['a', 'a'], ['t'], true, ['1'], ['B', 'o', 'b']⟩]
    ['x'] ['b', 'o'] (by decide) (by decide)).2 (by decide)
  have h2 := h.2.2 ['B', 'o', 'b'] (by decide)
  simpa using h2

/-!
### Migration ordering theorems (claim C8)
-/

/-- C8 counterexample: `details_to_markdown` removes the `.txt` file before
the `.md` successor has been written, so its trace violates
delete-only-after-write. -/
theorem details_to_markdown_cex :
    removalsAfterWrite
      (details_to_markdown_file (fun c => c) ['x', '.', 't', 'x', 't'] ['b'])
      ['x', '.', 't', 'x', 't']
      (splitextBase ['x', '.', 't', 'x', 't'] ++ mdExt) = false := by
  decide

/-- C8 amended: `details_to_yaml` refuses to overwrite an existing
`.bug.yaml` target (reading only, leaving the `.md` source in place) and
otherwise removes the `.md` source only after writing its successor, while
`details_to_markdown` removes the `.txt` source before writing the `.md`
successor (it has read the contents into memory first). -/
theorem migration_delete_order (toYaml transform : Str → Str) (p c : Str) :
    details_to_yaml_file toYaml p c true = [FsEvent.fread p]
    ∧ removalsAfterWrite (details_to_yaml_file toYaml p c false) p
        (splitextBase p ++ yamlExt) = true
    ∧ removalsAfterWrite (details_to_markdown_file transform p c) p
        (splitextBase p ++ mdExt) = false := by
  refine ⟨rfl, ?_, ?_⟩
  · simp [details_to_yaml_file, removalsAfterWrite]
  · simp [details_to_markdown_file, removalsAfterWrite]

/-- C10: the bytes written by `Tracker._write` are a function of the record
collection alone — two stores holding the same records (in any order, with
the distinct identifiers a dict guarantees) write identical file contents,
because records are emitted sorted by identifier. -/
theorem tracker_write_deterministic (bugs1 bugs2 : List Bug)
    (hperm : bugs1.Perm bugs2) (hnd : (bugs1.map Bug.id).Nodup) :
    tracker_write bugs1 = tracker_write bugs2 := by
  have hp1 := List.perm_insertionSort (fun a b : Bug => a.id ≤ b.id) bugs1
  have hp2 := List.perm_insertionSort (fun a b : Bug => a.id ≤ b.id) bugs2
  have hperm' : (bugs1.insertionSort (fun a b => a.id ≤ b.id)).Perm
      (bugs2.insertionSort (fun a b => a.id ≤ b.id)) :=
    hp1.trans (hperm.trans hp2.symm)
  have hnd2 : (bugs2.map Bug.id).Nodup := ((hperm.map Bug.id).nodup_iff).mp hnd
  have key : ∀ (l : List Bug), (l.map Bug.id).Nodup →
      (l.insertionSort (fun a b => a.id ≤ b.id)).Pairwise
        (fun a b => a.id < b.id) := by
    intro l hl
    have hs := List.sorted_insertionSort (fun a b : Bug => a.id ≤ b.id) l
    have hndl : ((l.insertionSort (fun a b => a.id ≤ b.id)).map Bug.id).Nodup :=
      (((List.perm_insertionSort (fun a b : Bug => a.id ≤ b.id) l).map
        Bug.id).nodup_iff).mpr hl
    have hne := List.pairwise_map.mp hndl
    exact (List.Pairwise.and hs hne).imp (fun h => lt_of_le_of_ne h.1 h.2)
  have heq : bugs1.insertionSort (fun a b => a.id ≤ b.id) =
      bugs2.insertionSort (fun a b => a.id ≤ b.id) :=
    List.eq_of_perm_of_sorted hperm' (key bugs1 hnd) (key bugs2 hnd2)
  simp [tracker_write, heq]

/-- C10 witness. -/
theorem tracker_write_deterministic_witness :
    tracker_write [⟨['a'], ['t'], true, ['1'], ['u']⟩, ⟨['b'], ['s'], false, ['2'], ['v']⟩] =
      tracker_write [⟨['b'], ['s'], false, ['2'], ['v']⟩, ⟨['a'], ['t'], true, ['1'], ['u']⟩] :=
  tracker_write_deterministic _ _ (List.Perm.swap _ _ _) (by decide)

/-- C4: writing a two-record store with `Tracker._write` and loading the
result back with the parser of `Tracker.__init__` yields a single record,
not two — `_write` emits no newline between records, so the reader (which
splits on lines) sees one concatenated line. -/
theorem tracker_write_load_not_roundtrip :
    ([(⟨['a', 'a'], ['t', '1'], true, ['1'], ['u']⟩ : Bug),
      ⟨['b', 'b'], ['t', '2'], true, ['2'], ['v']⟩] : List Bug).length = 2
    ∧ (tracker_load ['f'] ['9']
        (tracker_write
          [⟨['a', 'a'], ['t', '1'], true, ['1'], ['u']⟩,
           ⟨['b', 'b'], ['t', '2'], true, ['2'], ['v']⟩])).map List.length =
        some 1 := by
  refine ⟨rfl, ?_⟩
  decide

/-!
### The prefix computation (claim C1)

The correctness proof tracks an invariant of the dictionary `pre` across the
outer loop of `helpers.prefixes`.
-/

theorem breakCond_false_iff (d : List (Str × Str)) (pfx : Str) :
    breakCond d pfx = false ↔
      ∃ v, dget d pfx = some v ∧ (v = ph ∨ pfx = v) := by
  unfold breakCond
  cases hv : dget d pfx with
  | none => simp
  | some v =>
    by_cases h1 : v = ph
    · simp [h1]
    · by_cases h2 : pfx = v
      · simp [h1, h2]
      · simp [h1, h2]

theorem breakCond_true_of_none {d : List (Str × Str)} {pfx : Str}
    (h : dget d pfx = none) : breakCond d pfx = true := by
  unfold breakCond
  rw [h]

theorem breakCond_true_some {d : List (Str × Str)} {pfx v : Str}
    (hv : dget d pfx = some v) (h : breakCond d pfx = true) :
    ¬ v = ph ∧ ¬ pfx = v := by
  unfold breakCond at h
  rw [hv] at h
  simpa using h

theorem firstBreakAux_spec (d : List (Str × Str)) (e : Str) (stop : Nat) :
    ∀ fuel i, i + fuel = stop →
      i ≤ firstBreakAux d e stop i fuel
      ∧ firstBreakAux d e stop i fuel ≤ stop
      ∧ (∀ m, i ≤ m → m < firstBreakAux d e stop i fuel →
          breakCond d (e.take m) = false)
      ∧ (breakCond d (e.take (firstBreakAux d e stop i fuel)) = true
          ∨ firstBreakAux d e stop i fuel = stop) := by
  intro fuel
  induction fuel with
  | zero =>
    intro i hi
    have hr : firstBreakAux d e stop i 0 = i := rfl
    rw [hr]
    exact ⟨le_refl i, by omega,
      fun m h1 h2 => absurd (lt_of_le_of_lt h1 h2) (lt_irrefl i),
      Or.inr (by omega)⟩
  | succ fuel ih =>
    intro i hi
    by_cases hb : breakCond d (e.take i) = true
    · have hr : firstBreakAux d e stop i (fuel + 1) = i := by
        simp [firstBreakAux, hb]
      rw [hr]
      exact ⟨le_refl i, by omega,
        fun m h1 h2 => absurd (lt_of_le_of_lt h1 h2) (lt_irrefl i),
        Or.inl hb⟩
    · have hbf : breakCond d (e.take i) = false := Bool.eq_false_iff.mpr hb
      have hstop : ¬ stop ≤ i := by omega
      have hr : firstBreakAux d e stop i (fuel + 1) =
          firstBreakAux d e stop (i + 1) fuel := by
        simp [firstBreakAux, hbf, hstop]
      rw [hr]
      have ih' := ih (i + 1) (by omega)
      have hle1 := ih'.1
      refine ⟨by omega, ih'.2.1, ?_, ih'.2.2.2⟩
      intro m h1 h2
      by_cases hm : m = i
      · subst hm
        exact hbf
      · exact ih'.2.2.1 m (by omega) h2

theorem firstBreak_spec (d : List (Str × Str)) (e : Str) (he : ¬ e = []) :
    1 ≤ firstBreak d e
    ∧ firstBreak d e ≤ e.length
    ∧ (∀ m, 1 ≤ m → m < firstBreak d e → breakCond d (e.take m) = false)
    ∧ (breakCond d (e.take (firstBreak d e)) = true ∨ firstBreak d e = e.length) := by
  have hlen : 1 ≤ e.length := by
    cases e with
    | nil => exact absurd rfl he
    | cons c cs => simp
  exact firstBreakAux_spec d e e.length (e.length - 1) 1 (by omega)

theorem collisionLoop_diverge (e collide : Str) (stop : Nat) (jstar : Nat)
    (hagree : ∀ j', j' < jstar → collide.take j' = e.take j')
    (hdiv : ¬ collide.take jstar = e.take jstar) (hjs : jstar ≤ stop) :
    ∀ fuel j d, j + fuel = stop + 1 → j ≤ jstar →
      collisionLoop e collide stop j fuel d =
        dset (dset (phRangeN e j (jstar - j) d) (collide.take jstar) collide)
          (e.take jstar) e := by
  intro fuel
  induction fuel with
  | zero =>
    intro j d hj hjle
    omega
  | succ fuel ih =>
    intro j d hj hjle
    by_cases hjs' : j = jstar
    · subst hjs'
      simp only [collisionLoop, hdiv, if_false]
      simp [phRangeN]
    · have hlt : j < jstar := by omega
      have heq : collide.take j = e.take j := hagree j hlt
      simp only [collisionLoop, heq, if_true]
      rw [ih (j + 1) (dset d (e.take j) ph) (by omega) (by omega)]
      have hn : jstar - j = (jstar - (j + 1)) + 1 := by omega
      rw [hn]
      rfl

theorem collisionLoop_exhaust (e collide : Str) (stop : Nat)
    (hagree : ∀ j', j' ≤ stop → collide.take j' = e.take j') :
    ∀ fuel j d, j + fuel = stop + 1 →
      collisionLoop e collide stop j fuel d =
        dset (dset (phRangeN e j fuel d) (collide.take (stop + 1)) collide) e e := by
  intro fuel
  induction fuel with
  | zero =>
    intro j d hj
    simp [collisionLoop, phRangeN]
  | succ fuel ih =>
    intro j d hj
    have heq : collide.take j = e.take j := hagree j (by omega)
    simp only [collisionLoop, heq, if_true]
    rw [ih (j + 1) (dset d (e.take j) ph) (by omega)]
    rfl

theorem dget_phRangeN_other (e : Str) (k : Str) :
    ∀ n i d, (∀ m, m < n → ¬ k = e.take (i + m)) →
      dget (phRangeN e i n d) k = dget d k := by
  intro n
  induction n with
  | zero => intro i d _; rfl
  | succ n ih =>
    intro i d hk
    simp only [phRangeN]
    rw [ih (i + 1) _ (fun m hm => by
      have := hk (m + 1) (by omega)
      simpa [Nat.add_assoc, Nat.add_comm 1 m] using this)]
    exact dget_dset_ne d (e.take i) ph k (by simpa using hk 0 (by omega))

theorem isSome_dget_phRangeN (e : Str) (k : Str) :
    ∀ n i d, (dget d k).isSome = true →
      (dget (phRangeN e i n d) k).isSome = true := by
  intro n
  induction n with
  | zero => intro i d h; exact h
  | succ n ih =>
    intro i d h
    simp only [phRangeN]
    refine ih (i + 1) _ ?_
    rw [dget_dset]
    by_cases hk : k = e.take i
    · simp [hk]
    · simpa [hk] using h

theorem dget_phRangeN_mem (e : Str) :
    ∀ n i d m, m < n → i + n ≤ e.length + 1 →
      dget (phRangeN e i n d) (e.take (i + m)) = some ph := by
  intro n
  induction n with
  | zero => intro i d m hm; omega
  | succ n ih =>
    intro i d m hm hlen
    simp only [phRangeN]
    cases m with
    | zero =>
      rw [dget_phRangeN_other]
      · simpa using dget_dset_self d (e.take i) ph
      · intro m' hm'
        intro hkey
        have h1 : (e.take (i + 0)).length = i := by
          simp only [Nat.add_zero]
          rw [List.length_take]
          omega
        have h2 : (e.take (i + 1 + m')).length = i + 1 + m' := by
          rw [List.length_take]
          omega
        rw [hkey] at h1
        omega
    | succ m' =>
      have := ih (i + 1) (dset d (e.take i) ph) m' (by omega) (by omega)
      have harr : i + 1 + m' = i + (m' + 1) := by omega
      rw [harr] at this
      exact this

theorem take_length_of_le {e : Str} {i : Nat} (h : i ≤ e.length) :
    (e.take i).length = i := by
  rw [List.length_take]
  omega

theorem take_ne_nil_of_pos {e : Str} {i : Nat} (hi : 1 ≤ i) (he : ¬ e = []) :
    ¬ e.take i = [] := by
  intro h
  have h1 : (e.take i).length = 0 := by rw [h]; rfl
  rw [List.length_take] at h1
  have h2 : e.length ≠ 0 := fun hz => he (List.eq_nil_of_length_eq_zero hz)
  omega

theorem ne_ph_of_colon_not_mem {s : Str} (h : ':' ∉ s) : ¬ s = ph := by
  intro he
  exact h (he ▸ (by simp [ph]))

theorem colon_not_mem_take {e : Str} (hcol : ':' ∉ e) (i : Nat) :
    ':' ∉ e.take i := fun hmem => hcol (List.take_subset i e hmem)

theorem take_eq_of_pfx {l₁ l₂ : Str} (h : l₁ <+: l₂) :
    l₂.take l₁.length = l₁ := by
  obtain ⟨t, rfl⟩ := h
  simp [List.take_append]

theorem take_eq_of_pfx_len {l₁ l₂ : Str} {i : Nat} (h : l₁ <+: l₂)
    (hlen : l₁.length = i) : l₂.take i = l₁ := hlen ▸ take_eq_of_pfx h

theorem take_agree_mono {a b : Str} {j j' : Nat} (h : a.take j = b.take j)
    (hle : j' ≤ j) : a.take j' = b.take j' := by
  have h2 := congrArg (List.take j') h
  simpa [List.take_take, Nat.min_eq_left hle] using h2

theorem length_lt_of_proper_pfx {a b : Str} (h : a <+: b) (hne : ¬ a = b) :
    a.length < b.length := by
  rcases Nat.lt_or_ge a.length b.length with h1 | h1
  · exact h1
  · have h2 : b.length ≤ a.length := h1
    exact absurd (h.eq_of_length_le h2) hne

theorem take_pfx_take {e : Str} {m j : Nat} (h : m ≤ j) :
    e.take m <+: e.take j := by
  have h1 : e.take m = (e.take j).take m := by
    rw [List.take_take, Nat.min_eq_left h]
  rw [h1]
  exact List.take_prefix m (e.take j)

theorem eq_take_of_pfx_take {k e : Str} {j : Nat} (h : k <+: e.take j)
    (hj : j ≤ e.length) : k = e.take k.length := by
  have h1 := take_eq_of_pfx h
  rw [List.take_take] at h1
  have h2 : k.length ≤ (e.take j).length := h.length_le
  rw [take_length_of_le hj] at h2
  rw [Nat.min_eq_left h2] at h1
  exact h1.symm

theorem isSome_dget_dset {β : Type} (d : List (Str × β)) (a : Str) (b : β)
    (k : Str) (h : (dget d k).isSome = true) :
    (dget (dset d a b) k).isSome = true := by
  rw [dget_dset]
  by_cases hk : k = a
  · simp [hk]
  · simpa [hk] using h

theorem nodup_keys_phRangeN (e : Str) :
    ∀ n i d, ((d : List (Str × Str)).map Prod.fst).Nodup →
      ((phRangeN e i n d).map Prod.fst).Nodup := by
  intro n
  induction n with
  | zero => intro i d h; exact h
  | succ n ih => intro i d h; exact ih (i + 1) _ (nodup_keys_dset _ _ _ h)

theorem Inv.no_ext {S : List Str} {d : List (Str × Str)} (hInv : Inv S d)
    {k₀ c : Str} (h0 : dget d k₀ = some c) (hc1 : ¬ c = ph) (hc2 : ¬ c = k₀) :
    ∀ k, k₀ <+: k → ¬ k₀ = k → dget d k = none := by
  intro k hpfx hne
  cases hk : dget d k with
  | none => rfl
  | some v =>
    rcases hInv.resolved h0 hk hpfx hne with h | h
    · exact absurd h hc1
    · exact absurd h hc2

theorem inv_caseA (S : List Str) (d : List (Str × Str)) (e : Str) (i : Nat)
    (hInv : Inv S d) (heS : e ∉ S) (hene : ¬ e = []) (hcol : ':' ∉ e)
    (hi1 : 1 ≤ i) (hi2 : i ≤ e.length)
    (hprev : ∀ m, 1 ≤ m → m < i → breakCond d (e.take m) = false)
    (hnone : dget d (e.take i) = none) :
    Inv (S ++ [e]) (dset d (e.take i) e) := by
  have hplen : (e.take i).length = i := take_length_of_le hi2
  have hpne : ¬ e.take i = [] := take_ne_nil_of_pos hi1 hene
  have heph : ¬ e = ph := ne_ph_of_colon_not_mem hcol
  have hppfx : e.take i <+: e := List.take_prefix i e
  refine ⟨nodup_keys_dset _ _ _ hInv.nodupKeys, ?_, ?_, ?_, ?_, ?_, ?_⟩
  · -- vals
    intro k v h
    rw [dget_dset] at h
    by_cases hk : k = e.take i
    · rw [if_pos hk] at h
      obtain rfl : e = v := by injection h
      exact Or.inr ⟨List.mem_append.mpr (Or.inr (by simp)), hk ▸ hpne, hk ▸ hppfx⟩
    · rw [if_neg hk] at h
      rcases hInv.vals h with h1 | h1
      · exact Or.inl h1
      · exact Or.inr ⟨List.mem_append.mpr (Or.inl h1.1), h1.2.1, h1.2.2⟩
  · -- cover
    intro x hx
    rcases List.mem_append.mp hx with hx1 | hx1
    · obtain ⟨k, hk⟩ := hInv.cover x hx1
      refine ⟨k, ?_⟩
      rw [dget_dset]
      have hkne : ¬ k = e.take i := by
        intro he
        rw [he, hnone] at hk
        exact Option.noConfusion hk
      rw [if_neg hkne]
      exact hk
    · have hx2 : x = e := by simpa using hx1
      exact ⟨e.take i, by rw [hx2]; exact dget_dset_self d _ e⟩
  · -- uniqVal
    intro k1 k2 v h1 h2 hvph
    rw [dget_dset] at h1 h2
    by_cases hk1 : k1 = e.take i <;> by_cases hk2 : k2 = e.take i
    · rw [hk1, hk2]
    · rw [if_pos hk1] at h1
      rw [if_neg hk2] at h2
      obtain rfl : e = v := by injection h1
      rcases hInv.vals h2 with h3 | h3
      · exact absurd h3 heph
      · exact absurd h3.1 heS
    · rw [if_neg hk1] at h1
      rw [if_pos hk2] at h2
      obtain rfl : e = v := by injection h2
      rcases hInv.vals h1 with h3 | h3
      · exact absurd h3 heph
      · exact absurd h3.1 heS
    · rw [if_neg hk1] at h1
      rw [if_neg hk2] at h2
      exact hInv.uniqVal h1 h2 hvph
  · -- resolved
    intro k1 k2 v1 v2 h1 h2 hpfx hne
    rw [dget_dset] at h1 h2
    by_cases hk1 : k1 = e.take i
    · -- k1 is the new key; no key of the old dict strictly extends it
      rw [if_pos hk1] at h1
      have hk2 : ¬ k2 = e.take i := fun he => hne (hk1.trans he.symm)
      rw [if_neg hk2] at h2
      exfalso
      have hpfx2 : e.take i <+: k2 := hk1 ▸ hpfx
      have hne2 : ¬ e.take i = k2 := fun he => hk2 he.symm
      have hlen2 : i < k2.length := by
        have := length_lt_of_proper_pfx hpfx2 hne2
        omega
      have hsome := hInv.closedK h2 i (by omega) hlen2
      rw [take_eq_of_pfx_len hpfx2 hplen] at hsome
      rw [hnone] at hsome
      exact Bool.noConfusion hsome
    · rw [if_neg hk1] at h1
      by_cases hk2 : k2 = e.take i
      · -- k2 is the new key: k1 is a shorter e.take m with m < i
        rw [if_pos hk2] at h2
        have hk1ph : ¬ k1 = ph := by
          intro hkp
          have hmem : ':' ∈ k2 := hpfx.subset (by rw [hkp]; simp [ph])
          rw [hk2] at hmem
          exact (colon_not_mem_take hcol i) hmem
        have hk1ne : ¬ k1 = [] := by
          rcases hInv.keysOf h1 with h3 | h3
          · exact absurd h3 hk1ph
          · exact h3.choose_spec.2.1
        have hk1take : k1 = e.take k1.length := by
          refine eq_take_of_pfx_take ?_ hi2
          exact hk2 ▸ hpfx
        have hm1 : 1 ≤ k1.length := by
          cases hk : k1 with
          | nil => exact absurd hk hk1ne
          | cons c cs => simp
        have hmlt : k1.length < i := by
          have h4 := length_lt_of_proper_pfx hpfx hne
          rw [hk2, hplen] at h4
          exact h4
        have hbc := hprev k1.length hm1 hmlt
        rcases (breakCond_false_iff d (e.take k1.length)).mp hbc with ⟨v, hv, hor⟩
        rw [← hk1take] at hv
        rw [h1] at hv
        obtain rfl : v1 = v := by injection hv
        rcases hor with h5 | h5
        · exact Or.inl h5
        · exact Or.inr (by rw [← hk1take] at h5; exact h5.symm)
      · rw [if_neg hk2] at h2
        exact hInv.resolved h1 h2 hpfx hne
  · -- closedK
    intro k v h m hm1 hm2
    rw [dget_dset] at h
    by_cases hk : k = e.take i
    · have hmi : m < i := by
        have := hm2
        rw [hk, hplen] at this
        exact this
      have hktake : k.take m = e.take m := by
        rw [hk, List.take_take, Nat.min_eq_left (by omega)]
      have hbc := hprev m hm1 hmi
      rcases (breakCond_false_iff d (e.take m)).mp hbc with ⟨v', hv', _⟩
      rw [← hktake] at hv'
      exact isSome_dget_dset _ _ _ _ (by rw [hv']; rfl)
    · rw [if_neg hk] at h
      exact isSome_dget_dset _ _ _ _ (hInv.closedK h m hm1 hm2)
  · -- keysOf
    intro k v h
    rw [dget_dset] at h
    by_cases hk : k = e.take i
    · exact Or.inr ⟨e, List.mem_append.mpr (Or.inr (by simp)), hk ▸ hpne, hk ▸ hppfx⟩
    · rw [if_neg hk] at h
      rcases hInv.keysOf h with h1 | h1
      · exact Or.inl h1
      · obtain ⟨x, hx1, hx2, hx3⟩ := h1
        exact Or.inr ⟨x, List.mem_append.mpr (Or.inl hx1), hx2, hx3⟩

theorem inv_caseB1 (S : List Str) (d : List (Str × Str)) (e collide : Str)
    (i jstar : Nat)
    (hInv : Inv S d) (heS : e ∉ S) (hene : ¬ e = []) (hcol : ':' ∉ e)
    (hS : ∀ x ∈ S, ¬ x = [] ∧ ':' ∉ x)
    (hi1 : 1 ≤ i) (hi2 : i ≤ e.length)
    (hprev : ∀ m, 1 ≤ m → m < i → breakCond d (e.take m) = false)
    (hdg : dget d (e.take i) = some collide)
    (hcph : ¬ collide = ph) (hcpe : ¬ e.take i = collide)
    (hij : i < jstar) (hjs : jstar ≤ e.length)
    (hagree : ∀ j', j' < jstar → collide.take j' = e.take j')
    (hdiv : ¬ collide.take jstar = e.take jstar) :
    Inv (S ++ [e])
      (dset (dset (phRangeN e i (jstar - i) d) (collide.take jstar) collide)
        (e.take jstar) e) := by
  have hplen : (e.take i).length = i := take_length_of_le hi2
  have heph : ¬ e = ph := ne_ph_of_colon_not_mem hcol
  have hppfxC : e.take i <+: collide := by
    rcases hInv.vals hdg with h | h
    · exact absurd h hcph
    · exact h.2.2
  have hcS : collide ∈ S := by
    rcases hInv.vals hdg with h | h
    · exact absurd h hcph
    · exact h.1
  have hccol : ':' ∉ collide := (hS collide hcS).2
  have hcne_e : ¬ collide = e := fun h => heS (h ▸ hcS)
  have hclen : i < collide.length := by
    have h1 := length_lt_of_proper_pfx hppfxC hcpe
    omega
  have hnoext : ∀ k, e.take i <+: k → ¬ e.take i = k → dget d k = none :=
    hInv.no_ext hdg hcph (fun h => hcpe h.symm)
  have hcklen : i < (collide.take jstar).length := by
    rw [List.length_take]; omega
  have hcoll_take_i : collide.take i = e.take i := take_eq_of_pfx_len hppfxC hplen
  have hp_pfx_ck : e.take i <+: collide.take jstar := by
    rw [← hcoll_take_i]
    exact take_pfx_take (by omega)
  have hp_ne_ck : ¬ e.take i = collide.take jstar := by
    intro h
    have h2 := congrArg List.length h
    rw [hplen] at h2
    omega
  have hck_fresh : dget d (collide.take jstar) = none :=
    hnoext _ hp_pfx_ck hp_ne_ck
  have htkjlen : (e.take jstar).length = jstar := take_length_of_le hjs
  have hp_pfx_tkj : e.take i <+: e.take jstar := take_pfx_take (by omega)
  have hp_ne_tkj : ¬ e.take i = e.take jstar := by
    intro h
    have h2 := congrArg List.length h
    rw [hplen, htkjlen] at h2
    omega
  have htkj_fresh : dget d (e.take jstar) = none := hnoext _ hp_pfx_tkj hp_ne_tkj
  have htkm_fresh : ∀ m, i < m → m ≤ jstar → dget d (e.take m) = none := by
    intro m hm1 hm2
    have hmlen : (e.take m).length = m := take_length_of_le (by omega)
    refine hnoext _ (take_pfx_take (by omega)) ?_
    intro h
    have h2 := congrArg List.length h
    rw [hplen, hmlen] at h2
    omega
  have hck_ne_tkj : ¬ collide.take jstar = e.take jstar := hdiv
  -- value characterization of the new dictionary
  have hA : dget (dset (dset (phRangeN e i (jstar - i) d) (collide.take jstar)
      collide) (e.take jstar) e) (e.take jstar) = some e := dget_dset_self _ _ _
  have hB : dget (dset (dset (phRangeN e i (jstar - i) d) (collide.take jstar)
      collide) (e.take jstar) e) (collide.take jstar) = some collide := by
    rw [dget_dset_ne _ _ _ _ hck_ne_tkj]
    exact dget_dset_self _ _ _
  have hC : ∀ m, i ≤ m → m < jstar → ¬ e.take m = collide.take jstar →
      dget (dset (dset (phRangeN e i (jstar - i) d) (collide.take jstar)
        collide) (e.take jstar) e) (e.take m) = some ph := by
    intro m hm1 hm2 hmck
    have hmlen : (e.take m).length = m := take_length_of_le (by omega)
    have hm_ne_tkj : ¬ e.take m = e.take jstar := by
      intro h
      have h2 := congrArg List.length h
      rw [hmlen, htkjlen] at h2
      omega
    rw [dget_dset_ne _ _ _ _ hm_ne_tkj, dget_dset_ne _ _ _ _ hmck]
    have h3 := dget_phRangeN_mem e (jstar - i) i d (m - i) (by omega) (by omega)
    rw [show i + (m - i) = m by omega] at h3
    exact h3
  have hD : ∀ k, ¬ k = e.take jstar → ¬ k = collide.take jstar →
      (∀ m, i ≤ m → m < jstar → ¬ k = e.take m) →
      dget (dset (dset (phRangeN e i (jstar - i) d) (collide.take jstar)
        collide) (e.take jstar) e) k = dget d k := by
    intro k h1 h2 h3
    rw [dget_dset_ne _ _ _ _ h1, dget_dset_ne _ _ _ _ h2]
    exact dget_phRangeN_other e k (jstar - i) i d
      (fun m hm => h3 (i + m) (by omega) (by omega))
  have hmono : ∀ k, (dget d k).isSome = true →
      (dget (dset (dset (phRangeN e i (jstar - i) d) (collide.take jstar)
        collide) (e.take jstar) e) k).isSome = true := by
    intro k hk
    exact isSome_dget_dset _ _ _ _ (isSome_dget_dset _ _ _ _
      (isSome_dget_phRangeN e k (jstar - i) i d hk))
  have helim : ∀ k v, dget (dset (dset (phRangeN e i (jstar - i) d)
      (collide.take jstar) collide) (e.take jstar) e) k = some v →
      (k = e.take jstar ∧ v = e)
      ∨ (k = collide.take jstar ∧ v = collide)
      ∨ ((∃ m, i ≤ m ∧ m < jstar ∧ k = e.take m) ∧ v = ph)
      ∨ (dget d k = some v ∧ (∀ m, i ≤ m → m < jstar → ¬ k = e.take m)
          ∧ ¬ k = collide.take jstar ∧ ¬ k = e.take jstar) := by
    intro k v h
    by_cases h1 : k = e.take jstar
    · rw [h1, hA] at h
      exact Or.inl ⟨h1, by injection h with h'; exact h'.symm⟩
    · by_cases h2 : k = collide.take jstar
      · rw [h2, hB] at h
        exact Or.inr (Or.inl ⟨h2, by injection h with h'; exact h'.symm⟩)
      · by_cases h3 : ∃ m, i ≤ m ∧ m < jstar ∧ k = e.take m
        · obtain ⟨m, hm1, hm2, hkm⟩ := h3
          have h4 := hC m hm1 hm2 (fun hh => h2 (hkm.trans hh))
          rw [hkm, h4] at h
          exact Or.inr (Or.inr (Or.inl ⟨⟨m, hm1, hm2, hkm⟩,
            by injection h with h'; exact h'.symm⟩))
        · have h3' : ∀ m, i ≤ m → m < jstar → ¬ k = e.take m :=
            fun m hm1 hm2 hkm => h3 ⟨m, hm1, hm2, hkm⟩
          have h4 := hD k h1 h2 h3'
          rw [h4] at h
          exact Or.inr (Or.inr (Or.inr ⟨h, h3', h2, h1⟩))
  -- a shared final step: an old key below the break index is resolved
  have hfinish : ∀ (k1 v1 : Str), dget d k1 = some v1 →
      (∀ m, i ≤ m → m < jstar → ¬ k1 = e.take m) →
      ¬ k1 = [] → k1 = e.take k1.length → k1.length < jstar →
      v1 = ph ∨ v1 = k1 := by
    intro k1 v1 ho1 hcond1 hk1ne hk1take hm0lt
    have hm0ge : 1 ≤ k1.length := by
      have := List.length_pos.mpr hk1ne
      omega
    have hm0i : k1.length < i := by
      by_contra hge
      exact hcond1 k1.length (by omega) hm0lt hk1take
    have hbc := hprev k1.length hm0ge hm0i
    rcases (breakCond_false_iff d (e.take k1.length)).mp hbc with ⟨v, hv, hor⟩
    rw [← hk1take, ho1] at hv
    obtain rfl : v1 = v := by injection hv
    rcases hor with h5 | h5
    · exact Or.inl h5
    · exact Or.inr (by rw [← hk1take] at h5; exact h5.symm)
  refine ⟨?_, ?_, ?_, ?_, ?_, ?_, ?_⟩
  · -- nodupKeys
    exact nodup_keys_dset _ _ _ (nodup_keys_dset _ _ _
      (nodup_keys_phRangeN e (jstar - i) i d hInv.nodupKeys))
  · -- vals
    intro k v h
    rcases helim k v h with ⟨hk, hv⟩ | ⟨hk, hv⟩ | ⟨_, hv⟩ | ⟨ho, _, _, _⟩
    · subst hv
      exact Or.inr ⟨List.mem_append.mpr (Or.inr (by simp)),
        hk ▸ take_ne_nil_of_pos (by omega) hene, hk ▸ List.take_prefix _ _⟩
    · subst hv
      refine Or.inr ⟨List.mem_append.mpr (Or.inl hcS), ?_, hk ▸ List.take_prefix _ _⟩
      rw [hk]
      intro hnil
      rw [hnil] at hcklen
      simp at hcklen
    · exact Or.inl hv
    · rcases hInv.vals ho with h1 | h1
      · exact Or.inl h1
      · exact Or.inr ⟨List.mem_append.mpr (Or.inl h1.1), h1.2.1, h1.2.2⟩
  · -- cover
    intro x hx
    rcases List.mem_append.mp hx with hx1 | hx1
    · by_cases hxc : x = collide
      · exact ⟨collide.take jstar, hxc ▸ hB⟩
      · obtain ⟨k, hk⟩ := hInv.cover x hx1
        refine ⟨k, ?_⟩
        have h1 : ¬ k = e.take jstar := by
          intro hkk
          rw [hkk, htkj_fresh] at hk
          exact Option.noConfusion hk
        have h2 : ¬ k = collide.take jstar := by
          intro hkk
          rw [hkk, hck_fresh] at hk
          exact Option.noConfusion hk
        have h3 : ∀ m, i ≤ m → m < jstar → ¬ k = e.take m := by
          intro m hm1 hm2 hkk
          by_cases hmi : m = i
          · rw [hkk, hmi, hdg] at hk
            exact hxc (by injection hk with h'; exact h'.symm)
          · rw [hkk, htkm_fresh m (by omega) (by omega)] at hk
            exact Option.noConfusion hk
        rw [hD k h1 h2 h3]
        exact hk
    · have hx2 : x = e := by simpa using hx1
      exact ⟨e.take jstar, by rw [hx2]; exact hA⟩
  · -- uniqVal
    intro k1 k2 v h1 h2 hvph
    rcases helim k1 v h1 with ⟨hk1, hv1⟩ | ⟨hk1, hv1⟩ | ⟨_, hv1⟩ |
      ⟨ho1, hcond1, _, _⟩
    · rcases helim k2 v h2 with ⟨hk2, _⟩ | ⟨_, hv2⟩ | ⟨_, hv2⟩ | ⟨ho2, _, _, _⟩
      · exact hk1.trans hk2.symm
      · exact absurd (hv2.symm.trans hv1) hcne_e
      · exact absurd (hv1 ▸ hv2) (hv1 ▸ hvph)
      · exfalso
        rw [hv1] at ho2
        rcases hInv.vals ho2 with h3 | h3
        · exact heph h3
        · exact heS h3.1
    · rcases helim k2 v h2 with ⟨_, hv2⟩ | ⟨hk2, _⟩ | ⟨_, hv2⟩ | ⟨ho2, hcond2, _, _⟩
      · exact absurd (hv1.symm.trans hv2) hcne_e
      · exact hk1.trans hk2.symm
      · exact absurd (hv1 ▸ hv2) (hv1 ▸ hvph)
      · exfalso
        rw [hv1] at ho2
        have h3 := hInv.uniqVal ho2 hdg hcph
        exact hcond2 i (le_refl i) hij h3
    · exact absurd hv1 hvph
    · rcases helim k2 v h2 with ⟨_, hv2⟩ | ⟨_, hv2⟩ | ⟨_, hv2⟩ | ⟨ho2, _, _, _⟩
      · exfalso
        rw [hv2] at ho1
        rcases hInv.vals ho1 with h3 | h3
        · exact heph h3
        · exact heS h3.1
      · exfalso
        rw [hv2] at ho1
        have h3 := hInv.uniqVal ho1 hdg hcph
        exact hcond1 i (le_refl i) hij h3
      · exact absurd hv2 hvph
      · exact hInv.uniqVal ho1 ho2 hvph
  · -- resolved
    intro k1 k2 v1 v2 h1 h2 hpfx hne
    rcases helim k1 v1 h1 with ⟨hk1, hv1⟩ | ⟨hk1, hv1⟩ | ⟨_, hv1⟩ |
      ⟨ho1, hcond1, _, _⟩
    · -- k1 = e.take jstar
      by_cases hjlen : jstar = e.length
      · refine Or.inr ?_
        rw [hv1, hk1, hjlen, List.take_length]
      · exfalso
        have hk1len : k1.length = jstar := hk1 ▸ htkjlen
        have hlt := length_lt_of_proper_pfx hpfx hne
        rcases helim k2 v2 h2 with ⟨hk2, _⟩ | ⟨hk2, _⟩ | ⟨⟨m, _, hm2, hk2⟩, _⟩ |
          ⟨ho2, _, _, _⟩
        · exact hne (hk1.trans hk2.symm)
        · have h3 : k2.length ≤ jstar := by
            rw [hk2, List.length_take]
            omega
          omega
        · have h3 : k2.length ≤ m := by
            rw [hk2, List.length_take]
            omega
          omega
        · have h4 : e.take i <+: k2 := (hk1 ▸ hp_pfx_tkj).trans hpfx
          have h5 : ¬ e.take i = k2 := by
            intro hh
            have h6 := congrArg List.length hh
            rw [hplen] at h6
            omega
          rw [hnoext k2 h4 h5] at ho2
          exact Option.noConfusion ho2
    · -- k1 = collide.take jstar
      by_cases hckc : collide.take jstar = collide
      · exact Or.inr (by rw [hv1, hk1, hckc])
      · exfalso
        have hcklen2 : (collide.take jstar).length = jstar := by
          rw [List.length_take]
          rcases le_or_lt collide.length jstar with hcj | hcj
          · exact absurd (List.take_of_length_le hcj) hckc
          · omega
        have hk1len : k1.length = jstar := hk1 ▸ hcklen2
        have hlt := length_lt_of_proper_pfx hpfx hne
        rcases helim k2 v2 h2 with ⟨hk2, _⟩ | ⟨hk2, _⟩ | ⟨⟨m, _, hm2, hk2⟩, _⟩ |
          ⟨ho2, _, _, _⟩
        · have h3 : k2.length = jstar := hk2 ▸ htkjlen
          omega
        · exact hne (hk1.trans hk2.symm)
        · have h3 : k2.length ≤ m := by
            rw [hk2, List.length_take]
            omega
          omega
        · have h4 : e.take i <+: k2 := (hk1 ▸ hp_pfx_ck).trans hpfx
          have h5 : ¬ e.take i = k2 := by
            intro hh
            have h6 := congrArg List.length hh
            rw [hplen] at h6
            omega
          rw [hnoext k2 h4 h5] at ho2
          exact Option.noConfusion ho2
    · exact Or.inl hv1
    · -- k1 is an untouched key of the old dictionary
      have hk1ne : ¬ k1 = [] := by
        rcases hInv.keysOf ho1 with h3 | h3
        · subst h3
          simp [ph]
        · exact h3.choose_spec.2.1
      rcases helim k2 v2 h2 with ⟨hk2, _⟩ | ⟨hk2, _⟩ | ⟨⟨m, _, hm2, hk2⟩, _⟩ |
        ⟨ho2, _, _, _⟩
      · -- k2 = e.take jstar
        have hk1ph : ¬ k1 = ph := by
          intro hkp
          have hmem : ':' ∈ k2 := hpfx.subset (by rw [hkp]; simp [ph])
          rw [hk2] at hmem
          exact (colon_not_mem_take hcol jstar) hmem
        have hk1take : k1 = e.take k1.length :=
          eq_take_of_pfx_take (hk2 ▸ hpfx) hjs
        have hm0lt : k1.length < jstar := by
          have h3 := length_lt_of_proper_pfx hpfx hne
          rw [hk2, htkjlen] at h3
          exact h3
        exact hfinish k1 v1 ho1 hcond1 hk1ne hk1take hm0lt
      · -- k2 = collide.take jstar
        have hk1ph : ¬ k1 = ph := by
          intro hkp
          have hmem : ':' ∈ k2 := hpfx.subset (by rw [hkp]; simp [ph])
          rw [hk2] at hmem
          exact hccol (List.take_subset _ _ hmem)
        have hm0lt : k1.length < jstar := by
          have h3 := length_lt_of_proper_pfx hpfx hne
          have h4 : k2.length ≤ jstar := by
            rw [hk2, List.length_take]
            omega
          omega
        have hk1takeC : collide.take k1.length = k1 := by
          have h3 := take_eq_of_pfx (hk2 ▸ hpfx : k1 <+: collide.take jstar)
          rw [List.take_take] at h3
          rw [Nat.min_eq_left (by omega)] at h3
          exact h3
        have hk1take : k1 = e.take k1.length := by
          rw [← hagree k1.length hm0lt, hk1takeC]
        exact hfinish k1 v1 ho1 hcond1 hk1ne hk1take hm0lt
      · -- k2 = e.take m with i ≤ m < jstar
        have hk1ph : ¬ k1 = ph := by
          intro hkp
          have hmem : ':' ∈ k2 := hpfx.subset (by rw [hkp]; simp [ph])
          rw [hk2] at hmem
          exact (colon_not_mem_take hcol m) hmem
        have hk1take : k1 = e.take k1.length :=
          eq_take_of_pfx_take (hk2 ▸ hpfx) (by omega)
        have hm0lt : k1.length < jstar := by
          have h3 := length_lt_of_proper_pfx hpfx hne
          have h4 : k2.length ≤ m := by
            rw [hk2, List.length_take]
            omega
          omega
        exact hfinish k1 v1 ho1 hcond1 hk1ne hk1take hm0lt
      · exact hInv.resolved ho1 ho2 hpfx hne
  · -- closedK
    intro k v h m0 hm0pos hm0lt
    have hsub : ∀ m1, 1 ≤ m1 → m1 < jstar →
        (dget (dset (dset (phRangeN e i (jstar - i) d) (collide.take jstar)
          collide) (e.take jstar) e) (e.take m1)).isSome = true := by
      intro m1 hm11 hm12
      by_cases hm1i : m1 < i
      · have hbc := hprev m1 hm11 hm1i
        rcases (breakCond_false_iff d (e.take m1)).mp hbc with ⟨v', hv', _⟩
        exact hmono _ (by rw [hv']; rfl)
      · by_cases hmck : e.take m1 = collide.take jstar
        · rw [hmck, hB]; rfl
        · rw [hC m1 (by omega) hm12 hmck]; rfl
    rcases helim k v h with ⟨hk, _⟩ | ⟨hk, _⟩ | ⟨⟨m, _, hm2, hk⟩, _⟩ |
      ⟨ho, _, _, _⟩
    · have hklen : k.length = jstar := hk ▸ htkjlen
      have htk : k.take m0 = e.take m0 := by
        rw [hk, List.take_take, Nat.min_eq_left (by omega)]
      rw [htk]
      exact hsub m0 (by omega) (by omega)
    · have hklen : k.length ≤ jstar := by
        rw [hk, List.length_take]
        omega
      have htkC : k.take m0 = collide.take m0 := by
        rw [hk, List.take_take, Nat.min_eq_left (by omega)]
      have htk : k.take m0 = e.take m0 := by
        rw [htkC]
        exact hagree m0 (by omega)
      rw [htk]
      exact hsub m0 (by omega) (by omega)
    · have hklen : k.length ≤ m := by
        rw [hk, List.length_take]
        omega
      have htk : k.take m0 = e.take m0 := by
        rw [hk, List.take_take, Nat.min_eq_left (by omega)]
      rw [htk]
      exact hsub m0 (by omega) (by omega)
    · exact hmono _ (hInv.closedK ho m0 hm0pos hm0lt)
  · -- keysOf
    intro k v h
    rcases helim k v h with ⟨hk, _⟩ | ⟨hk, _⟩ | ⟨⟨m, hm1, hm2, hk⟩, _⟩ |
      ⟨ho, _, _, _⟩
    · exact Or.inr ⟨e, List.mem_append.mpr (Or.inr (by simp)),
        hk ▸ take_ne_nil_of_pos (by omega) hene, hk ▸ List.take_prefix _ _⟩
    · refine Or.inr ⟨collide, List.mem_append.mpr (Or.inl hcS), ?_,
        hk ▸ List.take_prefix _ _⟩
      rw [hk]
      intro hnil
      rw [hnil] at hcklen
      simp at hcklen
    · exact Or.inr ⟨e, List.mem_append.mpr (Or.inr (by simp)),
        hk ▸ take_ne_nil_of_pos (by omega) hene, hk ▸ List.take_prefix _ _⟩
    · rcases hInv.keysOf ho with h1 | h1
      · exact Or.inl h1
      · obtain ⟨x, hx1, hx2, hx3⟩ := h1
        exact Or.inr ⟨x, List.mem_append.mpr (Or.inl hx1), hx2, hx3⟩

theorem inv_caseB2 (S : List Str) (d : List (Str × Str)) (e collide : Str)
    (i : Nat)
    (hInv : Inv S d) (heS : e ∉ S) (hene : ¬ e = []) (hcol : ':' ∉ e)
    (hS : ∀ x ∈ S, ¬ x = [] ∧ ':' ∉ x)
    (hi1 : 1 ≤ i) (hi2 : i ≤ e.length)
    (hprev : ∀ m, 1 ≤ m → m < i → breakCond d (e.take m) = false)
    (hdg : dget d (e.take i) = some collide)
    (hcph : ¬ collide = ph) (hcpe : ¬ e.take i = collide)
    (hagree : ∀ j', j' ≤ e.length → collide.take j' = e.take j') :
    Inv (S ++ [e])
      (dset (dset (phRangeN e i (e.length + 1 - i) d)
        (collide.take (e.length + 1)) collide) e e) := by
  have hplen : (e.take i).length = i := take_length_of_le hi2
  have heph : ¬ e = ph := ne_ph_of_colon_not_mem hcol
  have hppfxC : e.take i <+: collide := by
    rcases hInv.vals hdg with h | h
    · exact absurd h hcph
    · exact h.2.2
  have hcS : collide ∈ S := by
    rcases hInv.vals hdg with h | h
    · exact absurd h hcph
    · exact h.1
  have hccol : ':' ∉ collide := (hS collide hcS).2
  have hcne_e : ¬ collide = e := fun h => heS (h ▸ hcS)
  have hnoext : ∀ k, e.take i <+: k → ¬ e.take i = k → dget d k = none :=
    hInv.no_ext hdg hcph (fun h => hcpe h.symm)
  have he_take : collide.take e.length = e := by
    have h1 := hagree e.length (le_refl _)
    rw [List.take_length] at h1
    exact h1
  have he_pfx_c : e <+: collide := he_take ▸ List.take_prefix _ _
  have hclen2 : e.length < collide.length :=
    length_lt_of_proper_pfx he_pfx_c (fun h => hcne_e h.symm)
  have hck2len : (collide.take (e.length + 1)).length = e.length + 1 :=
    take_length_of_le (by omega)
  have hcoll_take_i : collide.take i = e.take i := take_eq_of_pfx_len hppfxC hplen
  have hp_pfx_ck2 : e.take i <+: collide.take (e.length + 1) := by
    rw [← hcoll_take_i]
    exact take_pfx_take (by omega)
  have hp_ne_ck2 : ¬ e.take i = collide.take (e.length + 1) := by
    intro h
    have h2 := congrArg List.length h
    rw [hplen, hck2len] at h2
    omega
  have hck2_fresh : dget d (collide.take (e.length + 1)) = none :=
    hnoext _ hp_pfx_ck2 hp_ne_ck2
  have hck2_ne_e : ¬ collide.take (e.length + 1) = e := by
    intro h
    have h2 := congrArg List.length h
    rw [hck2len] at h2
    omega
  have htkm_ne_e : ∀ m, m < e.length → ¬ e.take m = e := by
    intro m hm h
    have h2 := congrArg List.length h
    rw [take_length_of_le (by omega)] at h2
    omega
  have htkm_ne_ck2 : ∀ m, m < e.length → ¬ e.take m = collide.take (e.length + 1) := by
    intro m hm h
    have h2 := congrArg List.length h
    rw [take_length_of_le (by omega), hck2len] at h2
    omega
  -- characterization
  have hA : dget (dset (dset (phRangeN e i (e.length + 1 - i) d)
      (collide.take (e.length + 1)) collide) e e) e = some e := dget_dset_self _ _ _
  have hB : dget (dset (dset (phRangeN e i (e.length + 1 - i) d)
      (collide.take (e.length + 1)) collide) e e) (collide.take (e.length + 1)) =
      some collide := by
    rw [dget_dset_ne _ _ _ _ hck2_ne_e]
    exact dget_dset_self _ _ _
  have hC : ∀ m, i ≤ m → m < e.length →
      dget (dset (dset (phRangeN e i (e.length + 1 - i) d)
        (collide.take (e.length + 1)) collide) e e) (e.take m) = some ph := by
    intro m hm1 hm2
    rw [dget_dset_ne _ _ _ _ (htkm_ne_e m hm2),
      dget_dset_ne _ _ _ _ (htkm_ne_ck2 m hm2)]
    have h3 := dget_phRangeN_mem e (e.length + 1 - i) i d (m - i) (by omega) (by omega)
    rw [show i + (m - i) = m by omega] at h3
    exact h3
  have hD : ∀ k, ¬ k = e → ¬ k = collide.take (e.length + 1) →
      (∀ m, i ≤ m → m < e.length → ¬ k = e.take m) →
      dget (dset (dset (phRangeN e i (e.length + 1 - i) d)
        (collide.take (e.length + 1)) collide) e e) k = dget d k := by
    intro k h1 h2 h3
    rw [dget_dset_ne _ _ _ _ h1, dget_dset_ne _ _ _ _ h2]
    refine dget_phRangeN_other e k (e.length + 1 - i) i d ?_
    intro m hm
    by_cases hlast : i + m = e.length
    · rw [hlast, List.take_length]
      exact h1
    · exact h3 (i + m) (by omega) (by omega)
  have hmono : ∀ k, (dget d k).isSome = true →
      (dget (dset (dset (phRangeN e i (e.length + 1 - i) d)
        (collide.take (e.length + 1)) collide) e e) k).isSome = true := by
    intro k hk
    exact isSome_dget_dset _ _ _ _ (isSome_dget_dset _ _ _ _
      (isSome_dget_phRangeN e k (e.length + 1 - i) i d hk))
  have helim : ∀ k v, dget (dset (dset (phRangeN e i (e.length + 1 - i) d)
      (collide.take (e.length + 1)) collide) e e) k = some v →
      (k = e ∧ v = e)
      ∨ (k = collide.take (e.length + 1) ∧ v = collide)
      ∨ ((∃ m, i ≤ m ∧ m < e.length ∧ k = e.take m) ∧ v = ph)
      ∨ (dget d k = some v ∧ (∀ m, i ≤ m → m < e.length → ¬ k = e.take m)
          ∧ ¬ k = collide.take (e.length + 1) ∧ ¬ k = e) := by
    intro k v h
    by_cases h1 : k = e
    · rw [h1, hA] at h
      exact Or.inl ⟨h1, by injection h with h'; exact h'.symm⟩
    · by_cases h2 : k = collide.take (e.length + 1)
      · rw [h2, hB] at h
        exact Or.inr (Or.inl ⟨h2, by injection h with h'; exact h'.symm⟩)
      · by_cases h3 : ∃ m, i ≤ m ∧ m < e.length ∧ k = e.take m
        · obtain ⟨m, hm1, hm2, hkm⟩ := h3
          have h4 := hC m hm1 hm2
          rw [hkm, h4] at h
          exact Or.inr (Or.inr (Or.inl ⟨⟨m, hm1, hm2, hkm⟩,
            by injection h with h'; exact h'.symm⟩))
        · have h3' : ∀ m, i ≤ m → m < e.length → ¬ k = e.take m :=
            fun m hm1 hm2 hkm => h3 ⟨m, hm1, hm2, hkm⟩
          have h4 := hD k h1 h2 h3'
          rw [h4] at h
          exact Or.inr (Or.inr (Or.inr ⟨h, h3', h2, h1⟩))
  -- a key of the old dictionary that is not the current slot is below i
  have hfinish : ∀ (k1 v1 : Str), dget d k1 = some v1 →
      (∀ m, i ≤ m → m < e.length → ¬ k1 = e.take m) → ¬ k1 = e →
      ¬ k1 = [] → k1 = e.take k1.length → k1.length < e.length →
      v1 = ph ∨ v1 = k1 := by
    intro k1 v1 ho1 hcond1 _ hk1ne hk1take hm0lt
    have hm0ge : 1 ≤ k1.length := by
      have := List.length_pos.mpr hk1ne
      omega
    have hm0i : k1.length < i := by
      by_contra hge
      exact hcond1 k1.length (by omega) hm0lt hk1take
    have hbc := hprev k1.length hm0ge hm0i
    rcases (breakCond_false_iff d (e.take k1.length)).mp hbc with ⟨v, hv, hor⟩
    rw [← hk1take, ho1] at hv
    obtain rfl : v1 = v := by injection hv
    rcases hor with h5 | h5
    · exact Or.inl h5
    · exact Or.inr (by rw [← hk1take] at h5; exact h5.symm)
  have hnotp : ∀ k, ¬ k = e → (∀ m, i ≤ m → m < e.length → ¬ k = e.take m) →
      ¬ k = e.take i := by
    intro k hke hcond hkp
    by_cases hil : i = e.length
    · rw [hil, List.take_length] at hkp
      exact hke hkp
    · exact hcond i (le_refl i) (by omega) hkp
  refine ⟨?_, ?_, ?_, ?_, ?_, ?_, ?_⟩
  · exact nodup_keys_dset _ _ _ (nodup_keys_dset _ _ _
      (nodup_keys_phRangeN e (e.length + 1 - i) i d hInv.nodupKeys))
  · -- vals
    intro k v h
    rcases helim k v h with ⟨hk, hv⟩ | ⟨hk, hv⟩ | ⟨_, hv⟩ | ⟨ho, _, _, _⟩
    · subst hv
      exact Or.inr ⟨List.mem_append.mpr (Or.inr (by simp)), hk ▸ hene,
        hk ▸ List.prefix_refl _⟩
    · subst hv
      refine Or.inr ⟨List.mem_append.mpr (Or.inl hcS), ?_, hk ▸ List.take_prefix _ _⟩
      rw [hk]
      intro hnil
      have h2 := congrArg List.length hnil
      rw [hck2len] at h2
      exact Nat.noConfusion h2
    · exact Or.inl hv
    · rcases hInv.vals ho with h1 | h1
      · exact Or.inl h1
      · exact Or.inr ⟨List.mem_append.mpr (Or.inl h1.1), h1.2.1, h1.2.2⟩
  · -- cover
    intro x hx
    rcases List.mem_append.mp hx with hx1 | hx1
    · by_cases hxc : x = collide
      · exact ⟨collide.take (e.length + 1), hxc ▸ hB⟩
      · obtain ⟨k, hk⟩ := hInv.cover x hx1
        refine ⟨k, ?_⟩
        have h1 : ¬ k = e := by
          intro hkk
          by_cases hil : i = e.length
          · have hke : k = e.take i := by rw [hil, List.take_length, hkk]
            rw [hke, hdg] at hk
            exact hxc (by injection hk with h'; exact h'.symm)
          · have h4 : e.take i <+: k := by
              rw [hkk]
              exact List.take_prefix i e
            have h5 : ¬ e.take i = k := by
              intro hh
              have h6 := congrArg List.length hh
              have h7 : k.length = e.length := by rw [hkk]
              rw [hplen, h7] at h6
              omega
            rw [hnoext k h4 h5] at hk
            exact Option.noConfusion hk
        have h2 : ¬ k = collide.take (e.length + 1) := by
          intro hkk
          rw [hkk, hck2_fresh] at hk
          exact Option.noConfusion hk
        have h3 : ∀ m, i ≤ m → m < e.length → ¬ k = e.take m := by
          intro m hm1 hm2 hkk
          by_cases hmi : m = i
          · rw [hkk, hmi, hdg] at hk
            exact hxc (by injection hk with h'; exact h'.symm)
          · have hmlen : (e.take m).length = m := take_length_of_le (by omega)
            have h4 : e.take i <+: e.take m := take_pfx_take (by omega)
            have h5 : ¬ e.take i = e.take m := by
              intro hh
              have h6 := congrArg List.length hh
              rw [hplen, hmlen] at h6
              omega
            rw [hkk, hnoext _ h4 h5] at hk
            exact Option.noConfusion hk
        rw [hD k h1 h2 h3]
        exact hk
    · have hx2 : x = e := by simpa using hx1
      exact ⟨e, by rw [hx2]; exact hA⟩
  · -- uniqVal
    intro k1 k2 v h1 h2 hvph
    rcases helim k1 v h1 with ⟨hk1, hv1⟩ | ⟨hk1, hv1⟩ | ⟨_, hv1⟩ |
      ⟨ho1, hcond1, _, hke1⟩
    · rcases helim k2 v h2 with ⟨hk2, _⟩ | ⟨_, hv2⟩ | ⟨_, hv2⟩ | ⟨ho2, _, _, _⟩
      · exact hk1.trans hk2.symm
      · exact absurd (hv2.symm.trans hv1) hcne_e
      · exact absurd (hv1 ▸ hv2) (hv1 ▸ hvph)
      · exfalso
        rw [hv1] at ho2
        rcases hInv.vals ho2 with h3 | h3
        · exact heph h3
        · exact heS h3.1
    · rcases helim k2 v h2 with ⟨_, hv2⟩ | ⟨hk2, _⟩ | ⟨_, hv2⟩ |
        ⟨ho2, hcond2, _, hke2⟩
      · exact absurd (hv1.symm.trans hv2) hcne_e
      · exact hk1.trans hk2.symm
      · exact absurd (hv1 ▸ hv2) (hv1 ▸ hvph)
      · exfalso
        rw [hv1] at ho2
        have h3 := hInv.uniqVal ho2 hdg hcph
        exact hnotp k2 hke2 hcond2 h3
    · exact absurd hv1 hvph
    · rcases helim k2 v h2 with ⟨_, hv2⟩ | ⟨_, hv2⟩ | ⟨_, hv2⟩ | ⟨ho2, _, _, _⟩
      · exfalso
        rw [hv2] at ho1
        rcases hInv.vals ho1 with h3 | h3
        · exact heph h3
        · exact heS h3.1
      · exfalso
        rw [hv2] at ho1
        have h3 := hInv.uniqVal ho1 hdg hcph
        exact hnotp k1 hke1 hcond1 h3
      · exact absurd hv2 hvph
      · exact hInv.uniqVal ho1 ho2 hvph
  · -- resolved
    intro k1 k2 v1 v2 h1 h2 hpfx hne
    rcases helim k1 v1 h1 with ⟨hk1, hv1⟩ | ⟨hk1, hv1⟩ | ⟨_, hv1⟩ |
      ⟨ho1, hcond1, _, hke1⟩
    · exact Or.inr (hv1.trans hk1.symm)
    · by_cases hckc : collide.take (e.length + 1) = collide
      · exact Or.inr (by rw [hv1, hk1, hckc])
      · exfalso
        have hk1len : k1.length = e.length + 1 := hk1 ▸ hck2len
        have hlt := length_lt_of_proper_pfx hpfx hne
        rcases helim k2 v2 h2 with ⟨hk2, _⟩ | ⟨hk2, _⟩ | ⟨⟨m, _, hm2, hk2⟩, _⟩ |
          ⟨ho2, _, _, _⟩
        · have h3 : k2.length = e.length := by rw [hk2]
          omega
        · exact hne (hk1.trans hk2.symm)
        · have h3 : k2.length ≤ m := by
            rw [hk2, List.length_take]
            omega
          omega
        · have h4 : e.take i <+: k2 := (hk1 ▸ hp_pfx_ck2).trans hpfx
          have h5 : ¬ e.take i = k2 := by
            intro hh
            have h6 := congrArg List.length hh
            rw [hplen] at h6
            omega
          rw [hnoext k2 h4 h5] at ho2
          exact Option.noConfusion ho2
    · exact Or.inl hv1
    · have hk1ne : ¬ k1 = [] := by
        rcases hInv.keysOf ho1 with h3 | h3
        · subst h3
          simp [ph]
        · exact h3.choose_spec.2.1
      rcases helim k2 v2 h2 with ⟨hk2, _⟩ | ⟨hk2, _⟩ | ⟨⟨m, _, hm2, hk2⟩, _⟩ |
        ⟨ho2, _, _, _⟩
      · have hk1take : k1 = e.take k1.length := (take_eq_of_pfx (hk2 ▸ hpfx)).symm
        have hm0lt : k1.length < e.length := by
          have h3 := length_lt_of_proper_pfx hpfx hne
          rw [hk2] at h3
          exact h3
        exact hfinish k1 v1 ho1 hcond1 hke1 hk1ne hk1take hm0lt
      · have hm0le : k1.length ≤ e.length := by
          have h3 := length_lt_of_proper_pfx hpfx hne
          have h4 : k2.length = e.length + 1 := hk2 ▸ hck2len
          omega
        have hk1takeC : collide.take k1.length = k1 := by
          have h3 := take_eq_of_pfx (hk2 ▸ hpfx : k1 <+: collide.take (e.length + 1))
          rw [List.take_take] at h3
          rw [Nat.min_eq_left (by omega)] at h3
          exact h3
        have hk1take : k1 = e.take k1.length := by
          rw [← hagree k1.length hm0le, hk1takeC]
        have hm0lt : k1.length < e.length := by
          rcases Nat.lt_or_ge k1.length e.length with h3 | h3
          · exact h3
          · exfalso
            have h4 : k1.length = e.length := by omega
            rw [h4, List.take_length] at hk1take
            exact hke1 hk1take
        exact hfinish k1 v1 ho1 hcond1 hke1 hk1ne hk1take hm0lt
      · have hk1take : k1 = e.take k1.length :=
          eq_take_of_pfx_take (hk2 ▸ hpfx) (by omega)
        have hm0lt : k1.length < e.length := by
          have h3 := length_lt_of_proper_pfx hpfx hne
          have h4 : k2.length ≤ m := by
            rw [hk2, List.length_take]
            omega
          omega
        exact hfinish k1 v1 ho1 hcond1 hke1 hk1ne hk1take hm0lt
      · exact hInv.resolved ho1 ho2 hpfx hne
  · -- closedK
    intro k v h m0 hm0pos hm0lt
    have hsub : ∀ m1, 1 ≤ m1 → m1 < e.length →
        (dget (dset (dset (phRangeN e i (e.length + 1 - i) d)
          (collide.take (e.length + 1)) collide) e e) (e.take m1)).isSome = true := by
      intro m1 hm11 hm12
      by_cases hm1i : m1 < i
      · have hbc := hprev m1 hm11 hm1i
        rcases (breakCond_false_iff d (e.take m1)).mp hbc with ⟨v', hv', _⟩
        exact hmono _ (by rw [hv']; rfl)
      · rw [hC m1 (by omega) hm12]; rfl
    rcases helim k v h with ⟨hk, _⟩ | ⟨hk, _⟩ | ⟨⟨m, _, hm2, hk⟩, _⟩ |
      ⟨ho, _, _, _⟩
    · have htk : k.take m0 = e.take m0 := by rw [hk]
      rw [htk]
      have hm0len : m0 < e.length := by
        have := hm0lt
        rw [hk] at this
        exact this
      exact hsub m0 (by omega) hm0len
    · have hklen : k.length = e.length + 1 := hk ▸ hck2len
      have hm0le : m0 ≤ e.length := by omega
      have htkC : k.take m0 = collide.take m0 := by
        rw [hk, List.take_take, Nat.min_eq_left (by omega)]
      have htk : k.take m0 = e.take m0 := by
        rw [htkC]
        exact hagree m0 hm0le
      rw [htk]
      by_cases hm0e : m0 = e.length
      · rw [hm0e, List.take_length]
        rw [hA]
        rfl
      · exact hsub m0 (by omega) (by omega)
    · have hklen : k.length ≤ m := by
        rw [hk, List.length_take]
        omega
      have htk : k.take m0 = e.take m0 := by
        rw [hk, List.take_take, Nat.min_eq_left (by omega)]
      rw [htk]
      exact hsub m0 (by omega) (by omega)
    · exact hmono _ (hInv.closedK ho m0 hm0pos hm0lt)
  · -- keysOf
    intro k v h
    rcases helim k v h with ⟨hk, _⟩ | ⟨hk, _⟩ | ⟨⟨m, hm1, hm2, hk⟩, _⟩ |
      ⟨ho, _, _, _⟩
    · exact Or.inr ⟨e, List.mem_append.mpr (Or.inr (by simp)), hk ▸ hene,
        hk ▸ List.prefix_refl _⟩
    · refine Or.inr ⟨collide, List.mem_append.mpr (Or.inl hcS), ?_,
        hk ▸ List.take_prefix _ _⟩
      rw [hk]
      intro hnil
      have h2 := congrArg List.length hnil
      rw [hck2len] at h2
      exact Nat.noConfusion h2
    · exact Or.inr ⟨e, List.mem_append.mpr (Or.inr (by simp)),
        hk ▸ take_ne_nil_of_pos (by omega) hene, hk ▸ List.take_prefix _ _⟩
    · rcases hInv.keysOf ho with h1 | h1
      · exact Or.inl h1
      · obtain ⟨x, hx1, hx2, hx3⟩ := h1
        exact Or.inr ⟨x, List.mem_append.mpr (Or.inl hx1), hx2, hx3⟩

theorem inv_caseC (S : List Str) (d : List (Str × Str)) (e : Str)
    (hInv : Inv S d) (heS : e ∉ S) (hene : ¬ e = []) (hcol : ':' ∉ e)
    (hS : ∀ x ∈ S, ¬ x = [] ∧ ':' ∉ x)
    (hprev : ∀ m, 1 ≤ m → m < e.length → breakCond d (e.take m) = false)
    (hdg : dget d e = some ph) :
    Inv (S ++ [e]) (dset (dset d ph ph) e e) := by
  have heph : ¬ e = ph := ne_ph_of_colon_not_mem hcol
  have hphv : dget d ph = none ∨ dget d ph = some ph := by
    cases hp : dget d ph with
    | none => exact Or.inl rfl
    | some v =>
      rcases hInv.vals hp with h | h
      · exact Or.inr (by rw [h])
      · exfalso
        have hm : ':' ∈ v := h.2.2.subset (by simp [ph])
        exact (hS v h.1).2 hm
  have hA : dget (dset (dset d ph ph) e e) e = some e := dget_dset_self _ _ _
  have hph_ne_e : ¬ ph = e := fun h => heph h.symm
  have hB : dget (dset (dset d ph ph) e e) ph = some ph := by
    rw [dget_dset_ne _ _ _ _ hph_ne_e]
    exact dget_dset_self _ _ _
  have hD : ∀ k, ¬ k = e → ¬ k = ph →
      dget (dset (dset d ph ph) e e) k = dget d k := by
    intro k h1 h2
    rw [dget_dset_ne _ _ _ _ h1, dget_dset_ne _ _ _ _ h2]
  have hmono : ∀ k, (dget d k).isSome = true →
      (dget (dset (dset d ph ph) e e) k).isSome = true := by
    intro k hk
    exact isSome_dget_dset _ _ _ _ (isSome_dget_dset _ _ _ _ hk)
  have helim : ∀ k v, dget (dset (dset d ph ph) e e) k = some v →
      (k = e ∧ v = e) ∨ (k = ph ∧ v = ph)
      ∨ (dget d k = some v ∧ ¬ k = e ∧ ¬ k = ph) := by
    intro k v h
    by_cases h1 : k = e
    · rw [h1, hA] at h
      exact Or.inl ⟨h1, by injection h with h'; exact h'.symm⟩
    · by_cases h2 : k = ph
      · rw [h2, hB] at h
        exact Or.inr (Or.inl ⟨h2, by injection h with h'; exact h'.symm⟩)
      · rw [hD k h1 h2] at h
        exact Or.inr (Or.inr ⟨h, h1, h2⟩)
  refine ⟨?_, ?_, ?_, ?_, ?_, ?_, ?_⟩
  · exact nodup_keys_dset _ _ _ (nodup_keys_dset _ _ _ hInv.nodupKeys)
  · -- vals
    intro k v h
    rcases helim k v h with ⟨hk, hv⟩ | ⟨_, hv⟩ | ⟨ho, _, _⟩
    · subst hv
      exact Or.inr ⟨List.mem_append.mpr (Or.inr (by simp)), hk ▸ hene,
        hk ▸ List.prefix_refl _⟩
    · exact Or.inl hv
    · rcases hInv.vals ho with h1 | h1
      · exact Or.inl h1
      · exact Or.inr ⟨List.mem_append.mpr (Or.inl h1.1), h1.2.1, h1.2.2⟩
  · -- cover
    intro x hx
    rcases List.mem_append.mp hx with hx1 | hx1
    · obtain ⟨k, hk⟩ := hInv.cover x hx1
      refine ⟨k, ?_⟩
      have hxph : ¬ x = ph := ne_ph_of_colon_not_mem (hS x hx1).2
      have h1 : ¬ k = e := by
        intro hkk
        rw [hkk, hdg] at hk
        exact hxph (by injection hk with h'; exact h'.symm)
      have h2 : ¬ k = ph := by
        intro hkk
        rw [hkk] at hk
        rcases hphv with h3 | h3
        · rw [h3] at hk
          exact Option.noConfusion hk
        · rw [h3] at hk
          exact hxph (by injection hk with h'; exact h'.symm)
      rw [hD k h1 h2]
      exact hk
    · have hx2 : x = e := by simpa using hx1
      exact ⟨e, by rw [hx2]; exact hA⟩
  · -- uniqVal
    intro k1 k2 v h1 h2 hvph
    rcases helim k1 v h1 with ⟨hk1, hv1⟩ | ⟨_, hv1⟩ | ⟨ho1, _, _⟩
    · rcases helim k2 v h2 with ⟨hk2, _⟩ | ⟨_, hv2⟩ | ⟨ho2, _, _⟩
      · exact hk1.trans hk2.symm
      · exact absurd (hv1 ▸ hv2) (hv1 ▸ hvph)
      · exfalso
        rw [hv1] at ho2
        rcases hInv.vals ho2 with h3 | h3
        · exact heph h3
        · exact heS h3.1
    · exact absurd hv1 hvph
    · rcases helim k2 v h2 with ⟨_, hv2⟩ | ⟨_, hv2⟩ | ⟨ho2, _, _⟩
      · exfalso
        rw [hv2] at ho1
        rcases hInv.vals ho1 with h3 | h3
        · exact heph h3
        · exact heS h3.1
      · exact absurd hv2 hvph
      · exact hInv.uniqVal ho1 ho2 hvph
  · -- resolved
    intro k1 k2 v1 v2 h1 h2 hpfx hne
    rcases helim k1 v1 h1 with ⟨hk1, hv1⟩ | ⟨_, hv1⟩ | ⟨ho1, hke1, hkp1⟩
    · exact Or.inr (hv1.trans hk1.symm)
    · exact Or.inl hv1
    · have hk1ne : ¬ k1 = [] := by
        rcases hInv.keysOf ho1 with h3 | h3
        · exact absurd h3 hkp1
        · exact h3.choose_spec.2.1
      rcases helim k2 v2 h2 with ⟨hk2, _⟩ | ⟨hk2, _⟩ | ⟨ho2, _, _⟩
      · -- k2 = e
        have hk1take : k1 = e.take k1.length := (take_eq_of_pfx (hk2 ▸ hpfx)).symm
        have hm0lt : k1.length < e.length := by
          have h3 := length_lt_of_proper_pfx hpfx hne
          rw [hk2] at h3
          exact h3
        have hm0ge : 1 ≤ k1.length := by
          have := List.length_pos.mpr hk1ne
          omega
        have hbc := hprev k1.length hm0ge hm0lt
        rcases (breakCond_false_iff d (e.take k1.length)).mp hbc with ⟨v, hv, hor⟩
        rw [← hk1take, ho1] at hv
        obtain rfl : v1 = v := by injection hv
        rcases hor with h5 | h5
        · exact Or.inl h5
        · exact Or.inr (by rw [← hk1take] at h5; exact h5.symm)
      · -- k2 = ph: k1 would be the empty string, impossible for a key
        exfalso
        have h3 := length_lt_of_proper_pfx hpfx hne
        have h4 : k2.length = 1 := by rw [hk2]; rfl
        have h5 : k1.length = 0 := by omega
        exact hk1ne (List.eq_nil_of_length_eq_zero h5)
      · exact hInv.resolved ho1 ho2 hpfx hne
  · -- closedK
    intro k v h m0 hm0pos hm0lt
    rcases helim k v h with ⟨hk, _⟩ | ⟨hk, _⟩ | ⟨ho, _, _⟩
    · have htk : k.take m0 = e.take m0 := by rw [hk]
      have hm0len : m0 < e.length := by
        have := hm0lt
        rw [hk] at this
        exact this
      have hbc := hprev m0 (by omega) hm0len
      rcases (breakCond_false_iff d (e.take m0)).mp hbc with ⟨v', hv', _⟩
      rw [htk]
      exact hmono _ (by rw [hv']; rfl)
    · exfalso
      have h4 : k.length = 1 := by rw [hk]; rfl
      omega
    · exact hmono _ (hInv.closedK ho m0 hm0pos hm0lt)
  · -- keysOf
    intro k v h
    rcases helim k v h with ⟨hk, _⟩ | ⟨hk, _⟩ | ⟨ho, _, _⟩
    · exact Or.inr ⟨e, List.mem_append.mpr (Or.inr (by simp)), hk ▸ hene,
        hk ▸ List.prefix_refl _⟩
    · exact Or.inl hk
    · rcases hInv.keysOf ho with h1 | h1
      · exact Or.inl h1
      · obtain ⟨x, hx1, hx2, hx3⟩ := h1
        exact Or.inr ⟨x, List.mem_append.mpr (Or.inl hx1), hx2, hx3⟩

theorem insertElem_inv (S : List Str) (d : List (Str × Str)) (e : Str)
    (hInv : Inv S d) (heS : e ∉ S) (hene : ¬ e = []) (hcol : ':' ∉ e)
    (hS : ∀ x ∈ S, ¬ x = [] ∧ ':' ∉ x) :
    Inv (S ++ [e]) (insertElem d e) := by
  obtain ⟨hi1, hi2, hprev, hbrk⟩ := firstBreak_spec d e hene
  have heph : ¬ e = ph := ne_ph_of_colon_not_mem hcol
  have hlen1 : 1 ≤ e.length := by
    have := List.length_pos.mpr hene
    omega
  have hred : insertElem d e =
      (match dget d (e.take (firstBreak d e)) with
        | some collide => collisionLoop e collide e.length (firstBreak d e)
            (e.length + 1 - firstBreak d e) d
        | none => dset d (e.take (firstBreak d e)) e) := rfl
  rw [hred]
  cases hdg : dget d (e.take (firstBreak d e)) with
  | none =>
    exact inv_caseA S d e (firstBreak d e) hInv heS hene hcol hi1 hi2 hprev hdg
  | some collide =>
    show Inv (S ++ [e]) (collisionLoop e collide e.length (firstBreak d e)
      (e.length + 1 - firstBreak d e) d)
    by_cases hbt : breakCond d (e.take (firstBreak d e)) = true
    · -- a genuine collision with a different element
      obtain ⟨hcph, hcpe⟩ := breakCond_true_some hdg hbt
      have hcph' : ¬ collide = ph := hcph
      have hppfxC : e.take (firstBreak d e) <+: collide := by
        rcases hInv.vals hdg with h | h
        · exact absurd h hcph'
        · exact h.2.2
      have hagree_low : ∀ j, j ≤ firstBreak d e → collide.take j = e.take j := by
        intro j hj
        have h1 : collide.take (firstBreak d e) = e.take (firstBreak d e) :=
          take_eq_of_pfx_len hppfxC (take_length_of_le hi2)
        exact take_agree_mono h1 hj
      by_cases hagreeAll : ∀ j', j' ≤ e.length → collide.take j' = e.take j'
      · rw [collisionLoop_exhaust e collide e.length hagreeAll
          (e.length + 1 - firstBreak d e) (firstBreak d e) d (by omega)]
        exact inv_caseB2 S d e collide (firstBreak d e) hInv heS hene hcol hS
          hi1 hi2 hprev hdg hcph' hcpe hagreeAll
      · have hex : ∃ j, ¬ collide.take j = e.take j := by
          by_contra hcon
          push_neg at hcon
          exact hagreeAll (fun j' _ => hcon j')
        have hex2 : ∃ j, j ≤ e.length ∧ ¬ collide.take j = e.take j := by
          by_contra hcon
          push_neg at hcon
          exact hagreeAll (fun j' hj' => hcon j' hj')
        obtain ⟨j0, hj0le, hj0div⟩ := hex2
        have hdivj : ¬ collide.take (Nat.find hex) = e.take (Nat.find hex) :=
          Nat.find_spec hex
        have hminj : ∀ j, j < Nat.find hex → collide.take j = e.take j := by
          intro j hj
          have := Nat.find_min hex hj
          exact not_not.mp this
        have hjs_le : Nat.find hex ≤ e.length :=
          le_trans (Nat.find_min' hex hj0div) hj0le
        have hij : firstBreak d e < Nat.find hex := by
          rcases Nat.lt_or_ge (firstBreak d e) (Nat.find hex) with h | h
          · exact h
          · exact absurd (hagree_low (Nat.find hex) h) hdivj
        rw [collisionLoop_diverge e collide e.length (Nat.find hex) hminj hdivj
          hjs_le (e.length + 1 - firstBreak d e) (firstBreak d e) d
          (by omega) (by omega)]
        exact inv_caseB1 S d e collide (firstBreak d e) (Nat.find hex) hInv heS
          hene hcol hS hi1 hi2 hprev hdg hcph' hcpe hij hjs_le hminj hdivj
    · -- the scan fell through: the whole element is a placeholder slot
      have hieq : firstBreak d e = e.length := by
        rcases hbrk with h | h
        · exact absurd h hbt
        · exact h
      have hbf : breakCond d (e.take (firstBreak d e)) = false :=
        Bool.eq_false_iff.mpr hbt
      rcases (breakCond_false_iff _ _).mp hbf with ⟨v, hv, hor⟩
      rw [hdg] at hv
      obtain rfl : collide = v := by injection hv
      have hdge : dget d e = some collide := by
        rw [← List.take_length e, ← hieq]
        exact hdg
      have hcphC : collide = ph := by
        rcases hor with h | h
        · exact h
        · exfalso
          rw [hieq, List.take_length] at h
          rcases hInv.vals hdge with h2 | h2
          · rw [← h] at h2
            exact heph h2
          · rw [← h] at h2
            exact heS h2.1
      subst hcphC
      have hfuel : e.length + 1 - firstBreak d e = 1 := by omega
      rw [hfuel]
      have hphtake : (ph : Str).take (firstBreak d e) = ph := by
        refine List.take_of_length_le ?_
        have : (ph : Str).length = 1 := rfl
        omega
      have hne2 : ¬ (ph : Str).take (firstBreak d e) = e.take (firstBreak d e) := by
        rw [hphtake, hieq, List.take_length]
        exact fun h => heph h.symm
      have hloop : collisionLoop e ph e.length (firstBreak d e) 1 d =
          dset (dset d ((ph : Str).take (firstBreak d e)) ph)
            (e.take (firstBreak d e)) e := by
        simp [collisionLoop, hne2]
      rw [hloop, hphtake, hieq, List.take_length]
      refine inv_caseC S d e hInv heS hene hcol hS ?_ (by
        rw [← List.take_length e, ← hieq]
        exact hdg)
      intro m hm1 hm2
      exact hprev m hm1 (by omega)

theorem insertAll_inv : ∀ (l S : List Str) (d : List (Str × Str)),
    Inv S d → (∀ x ∈ S ++ l, ¬ x = [] ∧ ':' ∉ x) → (S ++ l).Nodup →
    Inv (S ++ l) (l.foldl insertElem d) := by
  intro l
  induction l with
  | nil =>
    intro S d hInv _ _
    simpa using hInv
  | cons e l ih =>
    intro S d hInv hok hnd
    have heS : e ∉ S := by
      intro hmem
      have hdisj := (List.nodup_append.mp hnd).2.2
      exact hdisj hmem (by simp)
    have hene := (hok e (by simp)).1
    have hcol := (hok e (by simp)).2
    have hS : ∀ x ∈ S, ¬ x = [] ∧ ':' ∉ x :=
      fun x hx => hok x (List.mem_append.mpr (Or.inl hx))
    have hInv' := insertElem_inv S d e hInv heS hene hcol hS
    have hok' : ∀ x ∈ (S ++ [e]) ++ l, ¬ x = [] ∧ ':' ∉ x := by
      intro x hx
      refine hok x ?_
      rw [List.append_assoc] at hx
      simpa using hx
    have hnd' : ((S ++ [e]) ++ l).Nodup := by
      rw [List.append_assoc]
      simpa using hnd
    have hres := ih (S ++ [e]) (insertElem d e) hInv' hok' hnd'
    rw [List.append_assoc] at hres
    simpa using hres

theorem inv_empty : Inv [] [] := by
  refine ⟨List.nodup_nil, ?_, ?_, ?_, ?_, ?_, ?_⟩
  · intro k v h
    exact Option.noConfusion h
  · intro x hx
    exact absurd hx (List.not_mem_nil x)
  · intro k1 k2 v h
    exact Option.noConfusion h
  · intro k1 k2 v1 v2 h
    exact Option.noConfusion h
  · intro k v h
    exact Option.noConfusion h
  · intro k v h
    exact Option.noConfusion h

theorem prefixes_inv (l : List Str) (hnd : l.Nodup)
    (hok : ∀ x ∈ l, ¬ x = [] ∧ ':' ∉ x) : Inv l (insertAll l) := by
  have h := insertAll_inv l [] [] inv_empty (by simpa using hok) (by simpa using hnd)
  simpa [insertAll] using h

theorem invert_mem (d : List (Str × Str)) : ∀ (acc : List (Str × Str)) x k,
    (x, k) ∈ d.foldl (fun a kv => dset a kv.2 kv.1) acc →
    (x, k) ∈ acc ∨ (k, x) ∈ d := by
  induction d with
  | nil =>
    intro acc x k h
    exact Or.inl h
  | cons p rest ih =>
    intro acc x k h
    rcases ih (dset acc p.2 p.1) x k h with h1 | h1
    · rcases mem_dset_elim _ _ _ _ _ h1 with ⟨h2, h3⟩ | h2
      · right
        have h4 : (k, x) = p := by rw [h2, h3]
        exact h4 ▸ List.mem_cons.mpr (Or.inl rfl)
      · exact Or.inl h2
    · exact Or.inr (List.mem_cons_of_mem _ h1)

theorem keys_mono_foldl : ∀ (l : List (Str × Str)) (acc : List (Str × Str)) a,
    a ∈ acc.map Prod.fst →
    a ∈ (l.foldl (fun a kv => dset a kv.2 kv.1) acc).map Prod.fst := by
  intro l
  induction l with
  | nil => intro acc a h; exact h
  | cons p rest ih =>
    intro acc a h
    exact ih (dset acc p.2 p.1) a (mem_keys_dset _ _ _ _ h)

theorem invert_keys (d : List (Str × Str)) : ∀ (acc : List (Str × Str)) k x,
    (k, x) ∈ d →
    x ∈ (d.foldl (fun a kv => dset a kv.2 kv.1) acc).map Prod.fst := by
  induction d with
  | nil =>
    intro acc k x h
    exact absurd h (List.not_mem_nil _)
  | cons p rest ih =>
    intro acc k x h
    rcases List.mem_cons.mp h with h1 | h1
    · refine keys_mono_foldl rest (dset acc p.2 p.1) x ?_
      have hx : p.2 = x := by rw [← h1]
      rw [← hx]
      exact self_mem_keys_dset acc p.2 p.1
    · exact ih (dset acc p.2 p.1) k x h1

theorem nodup_keys_invert_foldl : ∀ (l : List (Str × Str)) (acc : List (Str × Str)),
    (acc.map Prod.fst).Nodup →
    ((l.foldl (fun a kv => dset a kv.2 kv.1) acc).map Prod.fst).Nodup := by
  intro l
  induction l with
  | nil => intro acc h; exact h
  | cons p rest ih =>
    intro acc h
    exact ih (dset acc p.2 p.1) (nodup_keys_dset _ _ _ h)

/-- C1: on any finite set of distinct non-empty identifier strings (an
identifier contains no `':'`, the character `prefixes` reserves as its
placeholder), the prefix computation returns exactly one entry per input
string, each assigned prefix is a non-empty leading substring of its
identifier, and no two assigned prefixes are equal strings unless one of the
two identifiers is a strict prefix of the other (in fact assigned prefixes
are always pairwise distinct, so the claim's exception clause never fires). -/
theorem prefixes_spec (l : List Str) (hnd : l.Nodup)
    (hok : ∀ x ∈ l, ¬ x = [] ∧ ':' ∉ x) :
    ((prefixes l).map Prod.fst).Nodup
    ∧ (∀ x, x ∈ (prefixes l).map Prod.fst ↔ x ∈ l)
    ∧ (prefixes l).length = l.length
    ∧ (∀ p ∈ prefixes l, ¬ p.2 = [] ∧ p.2 <+: p.1)
    ∧ (∀ p q, p ∈ prefixes l → q ∈ prefixes l → ¬ p.1 = q.1 → p.2 = q.2 →
        (p.1 <+: q.1 ∧ ¬ p.1 = q.1) ∨ (q.1 <+: p.1 ∧ ¬ q.1 = p.1)) := by
  have hInv := prefixes_inv l hnd hok
  have hkeysD : ((insertAll l).map Prod.fst).Nodup := hInv.nodupKeys
  have hDInodup : ((invertDict (insertAll l)).map Prod.fst).Nodup :=
    nodup_keys_invert_foldl (insertAll l) [] (by simp)
  have hent : ∀ x k, (x, k) ∈ invertDict (insertAll l) →
      dget (insertAll l) k = some x := by
    intro x k h
    rcases invert_mem (insertAll l) [] x k h with h1 | h1
    · exact absurd h1 (List.not_mem_nil _)
    · exact dget_of_mem _ _ _ hkeysD h1
  have hmemR : ∀ x k, (x, k) ∈ prefixes l ↔
      ((x, k) ∈ invertDict (insertAll l) ∧ ¬ x = ph) := by
    intro x k
    unfold prefixes ddel
    rw [List.mem_filter]
    simp
  have hRsub : ∀ p, p ∈ prefixes l → p ∈ invertDict (insertAll l) := by
    intro p hp
    have := (hmemR p.1 p.2).mp hp
    exact this.1
  have hRne : ∀ p, p ∈ prefixes l → ¬ p.1 = ph := by
    intro p hp
    exact ((hmemR p.1 p.2).mp hp).2
  have hRd : ∀ p, p ∈ prefixes l → dget (insertAll l) p.2 = some p.1 := by
    intro p hp
    exact hent p.1 p.2 (hRsub p hp)
  have hRkeys : ((prefixes l).map Prod.fst).Nodup := by
    refine List.Nodup.sublist ?_ hDInodup
    exact List.Sublist.map Prod.fst (List.filter_sublist _)
  have hmemIff : ∀ x, x ∈ (prefixes l).map Prod.fst ↔ x ∈ l := by
    intro x
    constructor
    · intro hx
      rcases List.mem_map.mp hx with ⟨p, hp, rfl⟩
      have hd := hRd p hp
      rcases hInv.vals hd with h1 | h1
      · exact absurd h1 (hRne p hp)
      · exact h1.1
    · intro hx
      obtain ⟨k, hk⟩ := hInv.cover x hx
      have hkeys : x ∈ (invertDict (insertAll l)).map Prod.fst :=
        invert_keys (insertAll l) [] k x (mem_of_dget _ _ _ hk)
      rcases List.mem_map.mp hkeys with ⟨p, hp, hp1⟩
      have hxph : ¬ x = ph := ne_ph_of_colon_not_mem (hok x hx).2
      have hpR : p ∈ prefixes l := by
        have := (hmemR p.1 p.2).mpr ⟨hp, by rw [hp1]; exact hxph⟩
        exact this
      exact List.mem_map.mpr ⟨p, hpR, hp1⟩
  refine ⟨hRkeys, hmemIff, ?_, ?_, ?_⟩
  · -- exactly one entry per input string
    have hperm : ((prefixes l).map Prod.fst).Perm l :=
      (List.perm_ext_iff_of_nodup hRkeys hnd).mpr hmemIff
    have h1 := hperm.length_eq
    rw [List.length_map] at h1
    exact h1
  · -- each prefix is a non-empty leading substring of its identifier
    intro p hp
    have hd := hRd p hp
    rcases hInv.vals hd with h1 | h1
    · exact absurd h1 (hRne p hp)
    · exact ⟨h1.2.1, h1.2.2⟩
  · -- assigned prefixes are pairwise distinct
    intro p q hp hq hne heq
    exfalso
    have hdp := hRd p hp
    have hdq := hRd q hq
    rw [heq, hdq] at hdp
    have h' : q.1 = p.1 := by injection hdp
    exact hne h'.symm

/-- C1 witness. -/
theorem prefixes_spec_witness :
    prefixes [['a', 'b'], ['a']] = [(['a'], ['a']), (['a', 'b'], ['a', 'b'])]
    ∧ (prefixes [['a', 'b'], ['a']]).length = ([['a', 'b'], ['a']] : List Str).length
    ∧ (∀ p ∈ prefixes [['a', 'b'], ['a']], ¬ p.2 = [] ∧ p.2 <+: p.1) := by
  have h := prefixes_spec [['a', 'b'], ['a']] (by decide) (by decide)
  exact ⟨by decide, h.2.2.1, h.2.2.2.1⟩

end BTrack
